import Mathlib

/-!
Verification of the terminal Markdown renderer (remark/shiki pipeline with
marked-terminal fallback).

ANSI-styled text is modelled as a list of segments: either a literal
character or an escape-sequence marker.  `stripAnsi` drops the escape
markers, `stringWidth` counts the remaining characters (every character is
modelled as one column wide; East-Asian double-width characters are outside
the model).  This mirrors how the source measures text: every width in the
program is computed on `stringWidth(stripAnsi(s))`.
-/

/-- One segment of ANSI-styled terminal text: a literal character or an
escape sequence (SGR code) carrying its payload. -/
inductive Seg where
  | esc (code : String)
  | chr (c : Char)
deriving DecidableEq, Repr

/-- ANSI-styled text: a sequence of characters interleaved with escapes. -/
abbrev AText := List Seg

/-- Model of `strip-ansi`: remove every escape sequence, keep characters. -/
def stripAnsi (t : AText) : List Char :=
  t.filterMap fun s => match s with
    | .esc _ => none
    | .chr c => some c

/-- Model of `string-width`: the visible column width of styled text
(every character one column). -/
def stringWidth (t : AText) : Nat := (stripAnsi t).length

/-- Inject a plain string into the styled-text model. -/
def ofString (s : String) : AText := s.data.map .chr

/-- `n` copies of character `c`, as styled text (models `'x'.repeat(n)`). -/
def repChr (c : Char) (n : Nat) : AText := List.replicate n (.chr c)

/-- Styled text not containing the literal character `c`. -/
def NoChr (c : Char) (t : AText) : Prop := Seg.chr c ∉ t

/-- Styled text containing no newline character. -/
abbrev NoNL (t : AText) : Prop := NoChr '\n' t

instance (c : Char) : DecidablePred (NoChr c) := fun t => by
  unfold NoChr; infer_instance

theorem stripAnsi_append (a b : AText) :
    stripAnsi (a ++ b) = stripAnsi a ++ stripAnsi b := by
  simp [stripAnsi, List.filterMap_append]

theorem stringWidth_append (a b : AText) :
    stringWidth (a ++ b) = stringWidth a + stringWidth b := by
  simp [stringWidth, stripAnsi_append]

theorem stripAnsi_map_chr (l : List Char) : stripAnsi (l.map .chr) = l := by
  induction l with
  | nil => rfl
  | cons c t ih => simp only [List.map_cons, stripAnsi, List.filterMap_cons] at ih ⊢; rw [ih]

theorem stripAnsi_ofString (s : String) : stripAnsi (ofString s) = s.data :=
  stripAnsi_map_chr s.data

theorem stringWidth_ofString (s : String) :
    stringWidth (ofString s) = s.data.length := by
  simp [stringWidth, stripAnsi_ofString]

theorem stripAnsi_repChr (c : Char) (n : Nat) :
    stripAnsi (repChr c n) = List.replicate n c := by
  induction n with
  | zero => rfl
  | succ k ih =>
    simp only [repChr, List.replicate_succ, stripAnsi, List.filterMap_cons] at ih ⊢
    rw [ih]

theorem stringWidth_repChr (c : Char) (n : Nat) :
    stringWidth (repChr c n) = n := by
  simp [stringWidth, stripAnsi_repChr]

/-- Model of JavaScript `s.split(c)` on styled text (escape markers are
never split points). -/
def splitOnChr (c : Char) : AText → List AText
  | [] => [[]]
  | s :: t =>
    if s = Seg.chr c then [] :: splitOnChr c t
    else
      match splitOnChr c t with
      | l :: ls => (s :: l) :: ls
      | [] => [[s]]

/-- Model of `parts.join(c)`. -/
def joinOnChr (c : Char) : List AText → AText
  | [] => []
  | [l] => l
  | l :: ls => l ++ Seg.chr c :: joinOnChr c ls

/-- Model of `s.split('\n')`. -/
def splitLines : AText → List AText := splitOnChr '\n'

/-- Model of `lines.join('\n')`. -/
def joinLines : List AText → AText := joinOnChr '\n'

/-- Model of splitting styled text on the space character (word
boundaries, as `wrap-ansi` does). -/
def splitWords : AText → List AText := splitOnChr ' '

theorem splitOnChr_ne_nil (c : Char) (t : AText) : splitOnChr c t ≠ [] := by
  induction t with
  | nil => simp [splitOnChr]
  | cons s t ih =>
    simp only [splitOnChr]
    split
    · simp
    · cases h : splitOnChr c t with
      | nil => simp
      | cons l ls => simp

theorem splitOnChr_of_noChr {c : Char} {t : AText} (h : NoChr c t) :
    splitOnChr c t = [t] := by
  induction t with
  | nil => rfl
  | cons s t ih =>
    have hs : s ≠ Seg.chr c := fun he => h (he ▸ List.mem_cons_self s t)
    have ht : NoChr c t := fun hm => h (List.mem_cons_of_mem s hm)
    simp [splitOnChr, hs, ih ht]

theorem splitOnChr_append {c : Char} {x : AText} (y : AText) (h : NoChr c x) :
    splitOnChr c (x ++ Seg.chr c :: y) = x :: splitOnChr c y := by
  induction x with
  | nil => simp [splitOnChr]
  | cons s t ih =>
    have hs : s ≠ Seg.chr c := fun he => h (he ▸ List.mem_cons_self s t)
    have ht : NoChr c t := fun hm => h (List.mem_cons_of_mem s hm)
    have h2 := ih ht
    show splitOnChr c (s :: (t ++ Seg.chr c :: y)) = (s :: t) :: splitOnChr c y
    simp only [splitOnChr, if_neg hs, h2]

/-- Splitting a join of split-character-free parts recovers the parts. -/
theorem splitOnChr_joinOnChr {c : Char} {Ls : List AText} (hne : Ls ≠ [])
    (h : ∀ l ∈ Ls, NoChr c l) : splitOnChr c (joinOnChr c Ls) = Ls := by
  induction Ls with
  | nil => exact absurd rfl hne
  | cons l ls ih =>
    cases ls with
    | nil =>
      simpa [joinOnChr] using splitOnChr_of_noChr (h l (List.mem_cons_self l []))
    | cons l' ls' =>
      have h1 : NoChr c l := h l (List.mem_cons_self _ _)
      have h2 : ∀ m ∈ l' :: ls', NoChr c m := fun m hm => h m (List.mem_cons_of_mem _ hm)
      have := ih (by simp) h2
      simp only [joinOnChr, splitOnChr_append _ h1, this]

/-- Every part of a split is free of the split character and its segments
come from the input. -/
theorem mem_splitOnChr {c : Char} {t l : AText} (hl : l ∈ splitOnChr c t) :
    NoChr c l ∧ ∀ s ∈ l, s ∈ t := by
  induction t generalizing l with
  | nil =>
    simp [splitOnChr] at hl
    subst hl
    exact ⟨fun h => by simp at h, fun s h => by simp at h⟩
  | cons x t ih =>
    simp only [splitOnChr] at hl
    split at hl
    · rename_i hx
      rcases List.mem_cons.mp hl with h | h
      · subst h
        exact ⟨fun h => by simp at h, fun s h => by simp at h⟩
      · obtain ⟨hn, hsub⟩ := ih h
        exact ⟨hn, fun s hs => List.mem_cons_of_mem _ (hsub s hs)⟩
    · rename_i hx
      cases hsp : splitOnChr c t with
      | nil => exact absurd hsp (splitOnChr_ne_nil c t)
      | cons m ms =>
        rw [hsp] at hl
        rcases List.mem_cons.mp hl with h | h
        · subst h
          obtain ⟨hn, hsub⟩ := ih (hsp ▸ List.mem_cons_self m ms)
          refine ⟨?_, ?_⟩
          · intro hmem
            rcases List.mem_cons.mp hmem with h' | h'
            · exact hx h'.symm
            · exact hn h'
          · intro s hs
            rcases List.mem_cons.mp hs with h' | h'
            · exact h' ▸ List.mem_cons_self _ _
            · exact List.mem_cons_of_mem _ (hsub s h')
        · obtain ⟨hn, hsub⟩ := ih (hsp ▸ List.mem_cons_of_mem m h)
          exact ⟨hn, fun s hs => List.mem_cons_of_mem _ (hsub s hs)⟩

theorem noNL_of_mem_splitLines {t l : AText} (hl : l ∈ splitLines t) :
    NoNL l := (mem_splitOnChr hl).1

/-!
Wrapping.  `wrap-ansi` is an external collaborator of the repository; the
spec (section 4.4) fixes its contract: wrap by visible width, never
splitting an escape sequence, tokens wider than the width emitted whole
when `hard` is false and broken at the width when `hard` is true.  The
definitions below are modelled from that contract.
-/

/-- Accumulator loop of `greedyWrap`: `cur` is the line built so far. -/
def greedyWrapGo (width : Nat) (cur : AText) : List AText → List AText
  | [] => [cur]
  | w :: ws =>
    if stringWidth cur + 1 + stringWidth w ≤ width then
      greedyWrapGo width (cur ++ Seg.chr ' ' :: w) ws
    else
      cur :: greedyWrapGo width w ws

/-- Modelled from the spec: greedy word filling of `wrap-ansi` — keep
adding words (plus a separating space) while the visible width stays within
`width`; a word that does not fit starts a new line; an overlong word is
emitted whole. -/
def greedyWrap (width : Nat) : List AText → List AText
  | [] => []
  | w :: ws => greedyWrapGo width w ws

/-- Model of `slice-ansi`: keep the first `n` visible characters, keeping
every escape marker encountered (escapes are never split or dropped). -/
def takeVisible : Nat → AText → AText
  | _, [] => []
  | n, .esc e :: t => .esc e :: takeVisible n t
  | 0, .chr _ :: _ => []
  | n + 1, .chr c :: t => .chr c :: takeVisible n t

/-- Modelled from the spec: hard line breaking of `wrap-ansi` — a word is
cut into chunks of visible width at most `width` (escape markers stay with
the chunk being built). `cur`/`k` accumulate the chunk under construction
and its visible width. -/
def chunkVisibleGo (width : Nat) (cur : AText) (k : Nat) : AText → List AText
  | [] => [cur]
  | .esc e :: t => chunkVisibleGo width (cur ++ [.esc e]) k t
  | .chr c :: t =>
    if k < width then chunkVisibleGo width (cur ++ [.chr c]) (k + 1) t
    else cur :: chunkVisibleGo width [.chr c] 1 t

/-- Cut one word into chunks of visible width at most `width`. -/
def chunkVisible (width : Nat) (w : AText) : List AText :=
  chunkVisibleGo width [] 0 w

/-- Modelled from the spec: `wrap-ansi(ln, width, {hard: false, trim:
false, wordWrap: true})` on a single newline-free line. -/
def wrapLineSoft (width : Nat) (ln : AText) : List AText :=
  greedyWrap width (splitWords ln)

/-- Modelled from the spec: `wrap-ansi(ln, width, {hard: true, trim:
false, wordWrap: true})` on a single newline-free line: overlong words are
first broken at the width, then lines are filled greedily. -/
def wrapLineHard (width : Nat) (ln : AText) : List AText :=
  greedyWrap width ((splitWords ln).flatMap (chunkVisible width))

/-- Soft wrapping of full (possibly multi-line) text: wrap each existing
line, join everything back with newlines (`wrap-ansi` preserves
pre-existing line breaks). -/
def wrapAnsiSoft (t : AText) (width : Nat) : AText :=
  joinLines ((splitLines t).flatMap (wrapLineSoft width))

/-- The widest word of a newline-free line. -/
def maxWordWidth (ln : AText) : Nat :=
  ((splitWords ln).map stringWidth).foldr max 0

theorem stringWidth_takeVisible (n : Nat) (t : AText) :
    stringWidth (takeVisible n t) = min n (stringWidth t) := by
  induction t generalizing n with
  | nil => simp [takeVisible, stringWidth, stripAnsi]
  | cons s t ih =>
    cases s with
    | esc e =>
      have hw : stringWidth (Seg.esc e :: t) = stringWidth t := by
        simp [stringWidth, stripAnsi, List.filterMap_cons]
      cases n with
      | zero =>
        simp only [takeVisible]
        have h2 : stringWidth (Seg.esc e :: takeVisible 0 t) = stringWidth (takeVisible 0 t) := by
          simp [stringWidth, stripAnsi, List.filterMap_cons]
        rw [h2, ih, hw]
      | succ k =>
        simp only [takeVisible]
        have h2 : stringWidth (Seg.esc e :: takeVisible (k+1) t) =
            stringWidth (takeVisible (k+1) t) := by
          simp [stringWidth, stripAnsi, List.filterMap_cons]
        rw [h2, ih, hw]
    | chr c =>
      have hw : stringWidth (Seg.chr c :: t) = stringWidth t + 1 := by
        simp [stringWidth, stripAnsi, List.filterMap_cons]
      cases n with
      | zero => simp [takeVisible, stringWidth, stripAnsi]
      | succ k =>
        simp only [takeVisible]
        have h2 : stringWidth (Seg.chr c :: takeVisible k t) =
            stringWidth (takeVisible k t) + 1 := by
          simp [stringWidth, stripAnsi, List.filterMap_cons]
        rw [h2, ih, hw]
        omega

theorem mem_takeVisible_sub {n : Nat} {t : AText} {s : Seg}
    (h : s ∈ takeVisible n t) : s ∈ t := by
  induction t generalizing n with
  | nil => simp [takeVisible] at h
  | cons x t ih =>
    cases x with
    | esc e =>
      simp only [takeVisible] at h
      rcases List.mem_cons.mp h with h' | h'
      · exact h' ▸ List.mem_cons_self _ _
      · exact List.mem_cons_of_mem _ (ih h')
    | chr c =>
      cases n with
      | zero => simp [takeVisible] at h
      | succ k =>
        simp only [takeVisible] at h
        rcases List.mem_cons.mp h with h' | h'
        · exact h' ▸ List.mem_cons_self _ _
        · exact List.mem_cons_of_mem _ (ih h')

/-- Every line the greedy filler emits stays within `M`, provided the
current line, the bound `width`, and every pending word do. -/
theorem greedyWrapGo_bound {width M : Nat} (hwM : width ≤ M) :
    ∀ (ws : List AText) (cur : AText), stringWidth cur ≤ M →
      (∀ w ∈ ws, stringWidth w ≤ M) →
      ∀ l ∈ greedyWrapGo width cur ws, stringWidth l ≤ M := by
  intro ws
  induction ws with
  | nil =>
    intro cur hc _ l hl
    simp only [greedyWrapGo, List.mem_singleton] at hl
    exact hl ▸ hc
  | cons w ws ih =>
    intro cur hc hws l hl
    simp only [greedyWrapGo] at hl
    split at hl
    · rename_i hfit
      exact ih _ (by
          have : stringWidth (cur ++ Seg.chr ' ' :: w) =
              stringWidth cur + (stringWidth w + 1) := by
            rw [stringWidth_append]
            simp [stringWidth, stripAnsi, List.filterMap_cons]
          omega)
        (fun x hx => hws x (List.mem_cons_of_mem _ hx)) l hl
    · rcases List.mem_cons.mp hl with h | h
      · exact h ▸ hc
      · exact ih _ (hws w (List.mem_cons_self _ _))
          (fun x hx => hws x (List.mem_cons_of_mem _ hx)) l h

theorem greedyWrap_bound {width M : Nat} (hwM : width ≤ M) {ws : List AText}
    (hws : ∀ w ∈ ws, stringWidth w ≤ M) :
    ∀ l ∈ greedyWrap width ws, stringWidth l ≤ M := by
  cases ws with
  | nil => intro l hl; simp [greedyWrap] at hl
  | cons w ws =>
    exact greedyWrapGo_bound hwM ws w (hws w (List.mem_cons_self _ _))
      (fun x hx => hws x (List.mem_cons_of_mem _ hx))

/-- Greedy filling introduces only space characters: every segment of an
output line is a space or comes from one of the words. -/
theorem greedyWrapGo_mem {width : Nat} :
    ∀ (ws : List AText) (cur : AText) (l : AText), l ∈ greedyWrapGo width cur ws →
      ∀ s ∈ l, s = Seg.chr ' ' ∨ s ∈ cur ∨ ∃ w ∈ ws, s ∈ w := by
  intro ws
  induction ws with
  | nil =>
    intro cur l hl s hs
    simp only [greedyWrapGo, List.mem_singleton] at hl
    exact Or.inr (Or.inl (hl ▸ hs))
  | cons w ws ih =>
    intro cur l hl s hs
    simp only [greedyWrapGo] at hl
    split at hl
    · rcases ih _ l hl s hs with h | h | ⟨w', hw', hsw⟩
      · exact Or.inl h
      · rcases List.mem_append.mp h with h' | h'
        · exact Or.inr (Or.inl h')
        · rcases List.mem_cons.mp h' with h'' | h''
          · exact Or.inl h''
          · exact Or.inr (Or.inr ⟨w, List.mem_cons_self _ _, h''⟩)
      · exact Or.inr (Or.inr ⟨w', List.mem_cons_of_mem _ hw', hsw⟩)
    · rcases List.mem_cons.mp hl with h | h
      · exact Or.inr (Or.inl (h ▸ hs))
      · rcases ih _ l h s hs with h' | h' | ⟨w', hw', hsw⟩
        · exact Or.inl h'
        · exact Or.inr (Or.inr ⟨w, List.mem_cons_self _ _, h'⟩)
        · exact Or.inr (Or.inr ⟨w', List.mem_cons_of_mem _ hw', hsw⟩)

/-!
Chalk styling model: each styler wraps its argument between an opening and
a closing SGR escape marker (level-2 color support is forced in
`ensureChalk`, so stylers always emit their escapes).
-/

/-- Wrap styled text between an opening and a closing escape. -/
def escWrap (o f : String) (t : AText) : AText := .esc o :: t ++ [.esc f]

def chalkBold : AText → AText := escWrap "1" "22"
def chalkItalic : AText → AText := escWrap "3" "23"
def chalkUnderline : AText → AText := escWrap "4" "24"
def chalkYellow : AText → AText := escWrap "33" "39"
def chalkCyan : AText → AText := escWrap "36" "39"
def chalkBlue : AText → AText := escWrap "34" "39"
def chalkGreen : AText → AText := escWrap "32" "39"
def chalkGray : AText → AText := escWrap "90" "39"

/-- `chalk.hex(color)`: truecolor opening escape carrying the hex color. -/
def chalkHex (color : String) : AText → AText := escWrap ("38;2;" ++ color) "39"

theorem stringWidth_escWrap (o f : String) (t : AText) :
    stringWidth (escWrap o f t) = stringWidth t := by
  simp [escWrap, stringWidth, stripAnsi, List.filterMap_cons, List.filterMap_append]

theorem stripAnsi_escWrap (o f : String) (t : AText) :
    stripAnsi (escWrap o f t) = stripAnsi t := by
  simp [escWrap, stripAnsi, List.filterMap_cons, List.filterMap_append]

/-- The theme: one styling function per semantic name, mirroring the
`context.theme` record built in `renderWithRemarkShiki`.  `del` is absent
from the built theme (the renderer falls back to the identity). -/
structure Theme where
  text : AText → AText
  strong : AText → AText
  emphasis : AText → AText
  code : AText → AText
  heading1 : AText → AText
  heading2 : AText → AText
  heading3 : AText → AText
  heading4 : AText → AText
  link : AText → AText
  linkUrl : AText → AText
  underline : AText → AText
  blockquote : AText → AText
  listBullet : AText → AText
  del : Option (AText → AText) := none

/-- The theme literal of `renderWithRemarkShiki` (source lines 177-191). -/
def defaultTheme : Theme where
  text := id
  strong := chalkBold
  emphasis := chalkItalic
  code := chalkYellow
  heading1 := fun s => chalkCyan (chalkBold s)
  heading2 := fun s => chalkBlue (chalkBold s)
  heading3 := fun s => chalkGreen (chalkBold s)
  heading4 := fun s => chalkYellow (chalkBold s)
  link := fun s => chalkBlue (chalkUnderline s)
  linkUrl := chalkBlue
  underline := chalkUnderline
  blockquote := fun s => chalkGray (chalkItalic s)
  listBullet := chalkCyan

/-- The render context threaded through the walker: requested width,
current indentation, theme, interactive flag. -/
structure RenderContext where
  width : Int
  indentLevel : Nat
  theme : Theme
  interactive : Bool

/-- Markdown document tree (the mdast shape the remark parser produces, as
far as the renderer consumes it).  `other`/`otherLeaf` stand for node
types the renderer has no case for, with and without children. -/
inductive MdNode where
  | text (value : String)
  | strong (children : List MdNode)
  | emphasis (children : List MdNode)
  | inlineCode (value : String)
  | delete (children : List MdNode)
  | link (children : List MdNode) (url : String)
  | heading (depth : Nat) (children : List MdNode)
  | paragraph (children : List MdNode)
  | blockquote (children : List MdNode)
  | list (ordered : Bool) (start : Option Int) (children : List MdNode)
  | listItem (children : List MdNode)
  | code (lang : Option String) (value : String)
  | thematicBreak
  | other (children : List MdNode)
  | otherLeaf
deriving Repr

/-- `node.children ?? []`. -/
def mdChildren : MdNode → List MdNode
  | .strong ks | .emphasis ks | .delete ks | .link ks _ | .heading _ ks
  | .paragraph ks | .blockquote ks | .list _ _ ks | .listItem ks | .other ks => ks
  | .text _ | .inlineCode _ | .code _ _ | .thematicBreak | .otherLeaf => []

/-- One shiki token: content plus optional color metadata (direct field,
nested style object, color extracted from the inline CSS-like style
string) and an optional font-style bitmask. -/
structure Tok where
  content : String
  color : Option String
  stylesColor : Option String
  htmlStyleColor : Option String
  fontStyle : Option Nat
deriving DecidableEq, Repr

/-- JavaScript truthiness for optional strings: the empty string is falsy. -/
def jsStr : Option String → Option String
  | some "" => none
  | x => x

/-- Color resolution priority of `codeToAnsi` (source lines 104-107):
direct color field, then nested style object, then color parsed out of the
inline style string. -/
def resolveColor (t : Tok) : Option String :=
  ((jsStr t.color).orElse fun _ => (jsStr t.stylesColor).orElse fun _ => jsStr t.htmlStyleColor)

/-- Styler composition of `codeToAnsi` (source lines 109-117): optional
truecolor base, then italic (bit 0), bold (bit 1), underline (bit 2),
chalk chaining nesting later styles innermost. -/
def tokStyler (color : Option String) (style : Nat) (s : AText) : AText :=
  let s := if style.testBit 2 then chalkUnderline s else s
  let s := if style.testBit 1 then chalkBold s else s
  let s := if style.testBit 0 then chalkItalic s else s
  match color with
  | some c => chalkHex c s
  | none => s

/-- The highlighter's token API (`highlighter.codeToTokens`): external
shiki collaborator, fallible on unknown languages. -/
def ShikiFn : Type := String → String → Except Unit (List (List Tok))

/-- Render one token to styled text. -/
def renderTok (t : Tok) : AText :=
  tokStyler (resolveColor t) (t.fontStyle.getD 0) (ofString t.content)

/-- The `codeToAnsi` implementation installed by `ensureInitialized`
(source lines 79-121): obtain token lines from shiki, style each token,
join tokens with nothing and lines with newlines; if tokenization throws
(unsupported language), fall back to the plain source text. -/
def codeToAnsi (hl : ShikiFn) (code lang : String) : AText :=
  match hl code lang with
  | .error _ => ofString code
  | .ok tokenLines =>
      joinLines (tokenLines.map fun line =>
        (line.map renderTok).foldr (· ++ ·) [])

/-- Convenience: plain characters as styled text. -/
def ofChars (l : List Char) : AText := l.map .chr

/-- The decimal digit character for `d` (digits above 9 clamp to '9';
never reached with `d < 10`). -/
def decDigit (d : Nat) : Char :=
  if d = 0 then '0' else if d = 1 then '1' else if d = 2 then '2'
  else if d = 3 then '3' else if d = 4 then '4' else if d = 5 then '5'
  else if d = 6 then '6' else if d = 7 then '7' else if d = 8 then '8'
  else '9'

/-- Decimal digits of a natural number (big-endian), modelling JavaScript
number-to-string conversion for non-negative integers. -/
def natChars (n : Nat) : List Char :=
  if _h : n < 10 then [decDigit n]
  else natChars (n / 10) ++ [decDigit (n % 10)]
decreasing_by exact Nat.div_lt_self (by omega) (by omega)

/-- Decimal digits of an integer, modelling JavaScript template
interpolation of a number. -/
def intChars (i : Int) : List Char :=
  if i < 0 then '-' :: natChars (-i).toNat else natChars i.toNat

mutual

/-- `renderInline` (source lines 195-215): inline node to styled text. -/
def renderInline (n : MdNode) (ctx : RenderContext) : AText :=
  match n with
  | .text v => ofString v
  | .strong ks => ctx.theme.strong (renderInlines ks ctx)
  | .emphasis ks => ctx.theme.emphasis (renderInlines ks ctx)
  | .inlineCode v => ctx.theme.code (ofString v)
  | .delete ks => (ctx.theme.del.getD id) (renderInlines ks ctx)
  | .link ks url =>
      ctx.theme.link (renderInlines ks ctx) ++ Seg.chr ' ' ::
        ctx.theme.linkUrl (ofString ("(" ++ url ++ ")"))
  | .heading _ ks => renderInlines ks ctx
  | .paragraph ks => renderInlines ks ctx
  | .blockquote ks => renderInlines ks ctx
  | .list _ _ ks => renderInlines ks ctx
  | .listItem ks => renderInlines ks ctx
  | .other ks => renderInlines ks ctx
  | .code _ _ => []
  | .thematicBreak => []
  | .otherLeaf => []

/-- `renderInlines`: children rendered and joined with nothing. -/
def renderInlines (ns : List MdNode) (ctx : RenderContext) : AText :=
  match ns with
  | [] => []
  | n :: rest => renderInline n ctx ++ renderInlines rest ctx

end

/-- `Math.max(20, ctx.width - ctx.indentLevel)` as a column count. -/
def availWidth (w : Int) (i : Nat) : Nat := (max 20 (w - i)).toNat

/-- `wrapParagraph` (source lines 221-236): soft-wrap to the available
width, then indent every line if the context is indented. -/
def wrapParagraph (text : AText) (ctx : RenderContext) : AText :=
  let availableWidth := availWidth ctx.width ctx.indentLevel
  let wrapped := wrapAnsiSoft text availableWidth
  if ctx.indentLevel > 0 then
    joinLines ((splitLines wrapped).map fun l => repChr ' ' ctx.indentLevel ++ l)
  else wrapped

/-- `ctx.width || process.stdout.columns || 80` (source line 323; `||`
skips falsy values, i.e. zero). -/
def currentWidthOf (w : Int) (stdoutCols : Option Int) : Int :=
  if w ≠ 0 then w
  else match stdoutCols with
    | some c => if c ≠ 0 then c else 80
    | none => 80

/-- `boxWidth = Math.max(40, Math.min(currentWidth, widthLocal))`. -/
def boxWidthOf (w widthLocal : Int) (stdoutCols : Option Int) : Nat :=
  (max 40 (min (currentWidthOf w stdoutCols) widthLocal)).toNat

/-- `innerWidth = Math.max(1, boxWidth - 4)`. -/
def innerWidthOf (w widthLocal : Int) (stdoutCols : Option Int) : Nat :=
  max 1 (boxWidthOf w widthLocal stdoutCols - 4)

/-- The top border of `boxCode` (source lines 330-346): corner plus
dashes, with the styled language label (when the language is set and not
"text") overwriting a dash segment sized to its visible width. -/
def boxTop (w widthLocal : Int) (lang : String) (th : Theme)
    (stdoutCols : Option Int) : AText :=
  let borderWidth : Nat := boxWidthOf w widthLocal stdoutCols - 2
  let labelRaw : String := if lang ≠ "" ∧ lang ≠ "text" then " " ++ lang ++ " " else ""
  let labelStyled : AText := if labelRaw ≠ "" then th.code (ofString labelRaw) else []
  if labelStyled ≠ [] then
    let labelDisplayWidth := stringWidth labelStyled
    let remainingDashes := borderWidth - labelDisplayWidth
    Seg.chr '┌' :: labelStyled ++ repChr '─' remainingDashes ++ [Seg.chr '┐']
  else Seg.chr '┌' :: repChr '─' borderWidth ++ [Seg.chr '┐']

/-- The bottom border of `boxCode` (source line 349). -/
def boxBottom (w widthLocal : Int) (stdoutCols : Option Int) : AText :=
  Seg.chr '└' :: repChr '─' (boxWidthOf w widthLocal stdoutCols - 2) ++ [Seg.chr '┘']

/-- Framing of one wrapped content line (source lines 361-375): truncate
by visible width if still too long, right-pad to the inner width, and put
the vertical borders around it. -/
def frameLine (innerWidth : Nat) (wrappedLine : AText) : AText :=
  let displayWidth := stringWidth wrappedLine
  let truncated :=
    if innerWidth < displayWidth then takeVisible innerWidth wrappedLine
    else wrappedLine
  let padding := innerWidth - stringWidth truncated
  Seg.chr '│' :: Seg.chr ' ' :: truncated ++ repChr ' ' padding ++
    [Seg.chr ' ', Seg.chr '│']

/-- `boxCode` (source lines 321-380): frame highlighted code in a
box-drawing border.  `stdoutCols` models `process.stdout.columns`. -/
def boxCode (contentAnsi : AText) (widthLocal : Int) (lang : String)
    (ctx : RenderContext) (stdoutCols : Option Int) : AText :=
  let innerWidth : Nat := innerWidthOf ctx.width widthLocal stdoutCols
  let contentLines : AText :=
    joinLines ((splitLines contentAnsi).map fun line =>
      joinLines ((wrapLineHard innerWidth line).map (frameLine innerWidth)))
  joinLines [boxTop ctx.width widthLocal lang ctx.theme stdoutCols, contentLines,
    boxBottom ctx.width widthLocal stdoutCols]

/-- Module state the block renderer reads: the shiki highlighter handle
(`shikiHighlighter`/`shikiAnsi`, present once initialization succeeded),
whether `cachedChalk` is set, and `process.stdout.columns`. -/
structure RenderEnv where
  hl : Option ShikiFn
  chalkCached : Bool
  stdoutCols : Option Int

theorem sizeOf_mdChildren_le (n : MdNode) : sizeOf (mdChildren n) ≤ sizeOf n := by
  cases n <;> simp [mdChildren] <;> omega

theorem one_le_sizeOf_mdList (l : List MdNode) : 1 ≤ sizeOf l := by
  cases l
  · simp
  · simp
    omega

/-- The list marker (source lines 263-264): `"{n}."` for ordered lists,
the themed bullet otherwise. -/
def markerStyledOf (ordered : Bool) (start : Int) (idx : Nat) (th : Theme) :
    AText :=
  let marker : AText :=
    if ordered then ofChars (intChars (start + idx)) ++ [Seg.chr '.']
    else [Seg.chr '•']
  if ordered then marker else th.listBullet marker

mutual

/-- `renderBlock` (source lines 238-319): block node to styled text. -/
def renderBlock (env : RenderEnv) (n : MdNode) (ctx : RenderContext) : AText :=
  match n with
  | .heading depth ks =>
      let content := renderInlines ks ctx
      if depth = 1 then ctx.theme.heading1 content
      else if depth = 2 then ctx.theme.heading2 content
      else if depth = 3 then ctx.theme.heading3 content
      else ctx.theme.heading4
        (repChr '#' (max 1 (min 6 depth)) ++ Seg.chr ' ' :: content)
  | .paragraph ks => wrapParagraph (renderInlines ks ctx) ctx
  | .blockquote ks =>
      let inner := joinLines
        (renderBlocks env ks { ctx with indentLevel := ctx.indentLevel + 2 })
      let prefixed := joinLines ((splitLines inner).map fun l => ofString "> " ++ l)
      ctx.theme.blockquote prefixed
  | .list ordered start items =>
      joinLines (renderListItems env ordered (start.getD 1) 0 items ctx)
  | .code lang? value =>
      let lang := lang?.getD "text"
      match env.hl with
      | some f => boxCode (codeToAnsi f value lang) ctx.width lang ctx env.stdoutCols
      | none =>
          boxCode (if env.chalkCached then chalkYellow (ofString value) else ofString value)
            ctx.width lang ctx env.stdoutCols
  | .thematicBreak => repChr '─' (ctx.width - ctx.indentLevel).toNat
  | .strong ks => joinLines (renderBlocks env ks ctx)
  | .emphasis ks => joinLines (renderBlocks env ks ctx)
  | .delete ks => joinLines (renderBlocks env ks ctx)
  | .link ks _ => joinLines (renderBlocks env ks ctx)
  | .listItem ks => joinLines (renderBlocks env ks ctx)
  | .other ks => joinLines (renderBlocks env ks ctx)
  | .text _ => []
  | .inlineCode _ => []
  | .otherLeaf => []
termination_by sizeOf n
decreasing_by all_goals (simp_wf <;> omega)

/-- Children rendered as blocks (joined with newlines by the caller). -/
def renderBlocks (env : RenderEnv) (ns : List MdNode) (ctx : RenderContext) :
    List AText :=
  match ns with
  | [] => []
  | n :: rest => renderBlock env n ctx :: renderBlocks env rest ctx
termination_by sizeOf ns
decreasing_by all_goals (simp_wf <;> omega)

/-- `Math.max(20, ctx.width - ctx.indentLevel - markerWidth)` (source
line 277). -/
def listAvailWidth (w : Int) (indent mw : Nat) : Nat :=
  (max 20 (w - indent - mw)).toNat

/-- One rendered list item (the body of the `items.map((item, idx) =>
...)` callback, source lines 262-292): marker, hanging indent, soft wrap
of the item body. -/
def renderListItem (env : RenderEnv) (ordered : Bool) (start : Int)
    (idx : Nat) (item : MdNode) (ctx : RenderContext) : AText :=
  let markerStyled := markerStyledOf ordered start idx ctx.theme
  let itemText := joinLines (renderItemKids env (mdChildren item) ctx)
  let markerWidth := stringWidth markerStyled + 1
  let availableWidth : Nat := listAvailWidth ctx.width ctx.indentLevel markerWidth
  let wrapped := wrapAnsiSoft itemText availableWidth
  let lines := splitLines wrapped
  let firstLine :=
    repChr ' ' ctx.indentLevel ++ markerStyled ++ Seg.chr ' ' :: lines.headD []
  let hangingIndent := repChr ' ' (ctx.indentLevel + markerWidth)
  let remainingLines := (lines.drop 1).map fun l => hangingIndent ++ l
  joinLines (firstLine :: remainingLines)
termination_by sizeOf item + 1
decreasing_by
  all_goals simp_wf
  all_goals (have hsz := sizeOf_mdChildren_le item; omega)

/-- The `items.map((item, idx) => ...)` loop of the list case. -/
def renderListItems (env : RenderEnv) (ordered : Bool) (start : Int)
    (idx : Nat) (items : List MdNode) (ctx : RenderContext) : List AText :=
  match items with
  | [] => []
  | item :: rest =>
      renderListItem env ordered start idx item ctx ::
        renderListItems env ordered start (idx + 1) rest ctx
termination_by sizeOf items
decreasing_by
  all_goals simp_wf
  all_goals (have hsz := one_le_sizeOf_mdList rest; omega)

/-- The `item.children.map(...)` body: paragraphs render inline, other
children recurse as blocks at `indentLevel + 2`. -/
def renderItemKids (env : RenderEnv) (ks : List MdNode) (ctx : RenderContext) :
    List AText :=
  match ks with
  | [] => []
  | c :: rest =>
      (match c with
       | .paragraph pk => renderInlines pk ctx
       | c' => renderBlock env c' { ctx with indentLevel := ctx.indentLevel + 2 }) ::
        renderItemKids env rest ctx
termination_by sizeOf ks
decreasing_by all_goals (simp_wf <;> omega)

end

/-- Separator-joined concatenation (models `parts.join(sep)`). -/
def joinSep (sep : AText) : List AText → AText
  | [] => []
  | [l] => l
  | l :: ls => l ++ sep ++ joinSep sep ls

/-- `renderRoot` (source lines 382-384): render every child, drop empty
renders, join with blank lines. -/
def renderRoot (env : RenderEnv) (ns : List MdNode) (ctx : RenderContext) : AText :=
  joinSep [Seg.chr '\n', Seg.chr '\n']
    ((ns.map fun n => renderBlock env n ctx).filter (· ≠ []))

/-!
Caches.  JavaScript `Map` is modelled as an insertion-ordered association
list with unique keys; `lruGet`/`lruSet` are the source's LRU helpers
(source lines 18-35) built on `get`/`set`/`delete`/first-key.
-/

/-- `map.get(key)`. -/
def mapGet {K V : Type} [DecidableEq K] : List (K × V) → K → Option V
  | [], _ => none
  | (k', v) :: rest, k => if k' = k then some v else mapGet rest k

/-- `map.delete(key)`: removes the entry holding `key`, keeping order. -/
def mapDelete {K V : Type} [DecidableEq K] : List (K × V) → K → List (K × V)
  | [], _ => []
  | (k', v) :: rest, k => if k' = k then rest else (k', v) :: mapDelete rest k

/-- `map.set(key, value)`: updates in place if present, else appends. -/
def mapSet {K V : Type} [DecidableEq K] : List (K × V) → K → V → List (K × V)
  | [], k, v => [(k, v)]
  | (k', v') :: rest, k, v =>
    if k' = k then (k', v) :: rest else (k', v') :: mapSet rest k v

/-- `map.has(key)`. -/
def mapHas {K V : Type} [DecidableEq K] (m : List (K × V)) (k : K) : Bool :=
  (mapGet m k).isSome

/-- `lruGet` (source lines 18-26): read and, on a hit, refresh recency by
delete-then-set (moving the entry to the most-recently-used end). -/
def lruGet {K V : Type} [DecidableEq K] (m : List (K × V)) (k : K) :
    Option V × List (K × V) :=
  match mapGet m k with
  | none => (none, m)
  | some v => (some v, mapSet (mapDelete m k) k v)

/-- `lruSet` (source lines 28-35): delete any stale entry, append the new
one, and if the size bound is exceeded drop the first (least recently
used) key. -/
def lruSet {K V : Type} [DecidableEq K] (m : List (K × V)) (k : K) (v : V)
    (max : Nat) : List (K × V) :=
  let m1 := if mapHas m k then mapDelete m k else m
  let m2 := mapSet m1 k v
  if max < m2.length then
    match m2 with
    | [] => []
    | (k0, _) :: _ => mapDelete m2 k0
  else m2

def MAX_AST_CACHE : Nat := 100
def MAX_RENDER_CACHE : Nat := 50

/-- One step of the djb2 hash: `hash = hash * 33 + charCode`, forced to 32
bits (`|0` keeps the residue class mod 2^32; `>>> 0` reads it unsigned). -/
def djb2Step (h : Nat) (c : Char) : Nat := (h * 33 + c.toNat) % 4294967296

/-- `hashKey` (source lines 132-141): djb2 over the code units, rendered
as unsigned hex. -/
def djb2 (s : String) : Nat := s.data.foldl djb2Step 5381

/-- Lowercase hex digit for `n < 16` (values above 15 clamp to 'f'). -/
def hexDigit (n : Nat) : Char :=
  if n < 10 then decDigit n
  else if n = 10 then 'a' else if n = 11 then 'b' else if n = 12 then 'c'
  else if n = 13 then 'd' else if n = 14 then 'e' else 'f'

/-- Hex digits of a natural number (big-endian), modelling
`(h >>> 0).toString(16)`. -/
def hexChars (n : Nat) : List Char :=
  if _h : n < 16 then [hexDigit n]
  else hexChars (n / 16) ++ [hexDigit (n % 16)]
decreasing_by exact Nat.div_lt_self (by omega) (by omega)

/-- The content hash used as AST-cache key and render-cache key component. -/
def hashKey (s : String) : List Char := hexChars (djb2 s)

/-- `getWidthBucket` (source lines 464-466): `Math.round(width / 10) * 10`
(JavaScript rounds half toward positive infinity, i.e. floor of x + 1/2). -/
def getWidthBucket (w : Int) : Int := (w + 5).fdiv 10 * 10

/-- The render-cache key (source line 170):
`[astKey]:[widthBucket]:github-dark:false`. -/
def mkCacheKey (h : List Char) (b : Int) : List Char :=
  h ++ ':' :: intChars b ++ ':' :: "github-dark:false".data

/-- Boolean list-starts-with check. -/
def startsList : List Char → List Char → Bool
  | [], _ => true
  | _ :: _, [] => false
  | p :: ps, s :: ss => p = s && startsList ps ss

/-- Model of JavaScript `s.includes(pat)`. -/
def listContains : List Char → List Char → Bool
  | s, pat =>
    if startsList pat s then true
    else match s with
      | [] => false
      | _ :: t => listContains t pat

/-- The module state of the renderer: initialization flag, the two caches,
and the remembered width (source lines 3-16). -/
structure RState where
  initialized : Bool
  astCache : List (List Char × List MdNode)
  renderCache : List (List Char × AText)
  cachedWidth : Option Int

/-- `clearRenderCache` (source lines 468-470). -/
def clearRenderCache (st : RState) : RState := { st with renderCache := [] }

/-- `invalidateCacheForWidth` (source lines 472-479): delete every
render-cache entry whose key contains `:[bucket]:`. -/
def invalidateCacheForWidth (w : Int) (st : RState) : RState :=
  let bucket := getWidthBucket w
  { st with renderCache :=
      st.renderCache.filter fun kv =>
        !(listContains kv.1 (':' :: intChars bucket ++ [':'])) }

/-- The external collaborators of the pipeline: whether the remark/shiki
initialization imports succeed, whether the legacy marked pipeline
succeeds, the parser, the legacy renderer, the highlighter's token API,
and `process.stdout.columns`. -/
structure PipeEnv where
  remarkOk : Bool
  markedOk : Bool
  parse : String → List MdNode
  markedRender : String → Int → AText
  shikiTokens : ShikiFn
  stdoutCols : Option Int

/-- `ensureInitialized` (source lines 48-130): no-op once initialized;
otherwise acquire the parser and highlighter resources, failing (and
leaving the flag unset) if any import or construction throws. -/
def ensureInitialized (env : PipeEnv) (st : RState) : Except Unit RState :=
  if st.initialized then .ok st
  else if env.remarkOk then .ok { st with initialized := true }
  else .error ()

/-- `renderWithRemarkShiki` (source lines 150-404): initialize, consult
the AST cache (keyed by content hash), consult the render cache (keyed by
content hash, width bucket, theme, interactive flag), render on a miss and
store the result. -/
def renderWithRemarkShiki (env : PipeEnv) (st : RState) (md : String)
    (width : Int) : Except Unit (AText × RState) :=
  match ensureInitialized env st with
  | .error e => .error e
  | .ok st1 =>
    let astKey := hashKey md
    let (a0, ac1) := lruGet st1.astCache astKey
    let (ast, ac2) :=
      match a0 with
      | some a => (a, ac1)
      | none => (env.parse md, lruSet ac1 astKey (env.parse md) MAX_AST_CACHE)
    let cacheKey := mkCacheKey astKey (getWidthBucket width)
    let (c0, rc1) := lruGet st1.renderCache cacheKey
    match c0 with
    | some cached =>
      if cached ≠ [] then .ok (cached, { st1 with astCache := ac2, renderCache := rc1 })
      else
        let ctx : RenderContext :=
          { width := width, indentLevel := 0, theme := defaultTheme, interactive := false }
        let renv : RenderEnv :=
          { hl := some env.shikiTokens, chalkCached := true, stdoutCols := env.stdoutCols }
        let rendered := renderRoot renv ast ctx
        .ok (rendered,
          { st1 with
            astCache := ac2,
            renderCache := lruSet rc1 cacheKey rendered MAX_RENDER_CACHE })
    | none =>
      let ctx : RenderContext :=
        { width := width, indentLevel := 0, theme := defaultTheme, interactive := false }
      let renv : RenderEnv :=
        { hl := some env.shikiTokens, chalkCached := true, stdoutCols := env.stdoutCols }
      let rendered := renderRoot renv ast ctx
      .ok (rendered,
        { st1 with
          astCache := ac2,
          renderCache := lruSet rc1 cacheKey rendered MAX_RENDER_CACHE })

/-- `renderWithMarked` (source lines 406-444): the legacy marked-terminal
pipeline; its imports and render may themselves fail, and nothing in it
catches such a failure (only the optional cli-highlight import is
guarded). -/
def renderWithMarked (env : PipeEnv) (md : String) (width : Int) :
    Except Unit AText :=
  if env.markedOk then .ok (env.markedRender md width) else .error ()

/-- The width actually used (source line 448):
`typeof width === 'number' ? width : (process.stdout.columns ?? 80)`. -/
def targetWidthOf (width : Option Int) (cols : Option Int) : Int :=
  match width with
  | some v => v
  | none => cols.getD 80

/-- `renderMarkdownToAnsi` (source lines 446-461): empty input short
circuits; otherwise try the remark/shiki pipeline and fall back to the
legacy pipeline on failure. -/
def renderMarkdownToAnsi (env : PipeEnv) (st : RState) (md : String)
    (width : Option Int) : Except Unit AText × RState :=
  if md = "" then (.ok [], st)
  else
    let targetWidth := targetWidthOf width env.stdoutCols
    match renderWithRemarkShiki env st md targetWidth with
    | .ok (r, st') => (.ok r, { st' with cachedWidth := some targetWidth })
    | .error _ =>
      match renderWithMarked env md targetWidth with
      | .ok r => (.ok r, { st with cachedWidth := some targetWidth })
      | .error e => (.error e, st)

/-!
Interleaving model of `ensureInitialized` for the concurrency claim.  The
function's only guard is the boolean `initialized`, read synchronously at
entry and set only after the last `await` completes; each dynamic import
is a suspension point at which another caller can run.  A caller is
modelled as a little state machine: `idle` (has not entered yet),
`working k` (has passed the flag check — counting as having started an
initialization — with `k` awaited steps left), `finished`.
-/

/-- Global state seen by concurrent callers of `ensureInitialized`: the
module-level `initialized` flag plus a ghost counter of how many
initializations have been started. -/
structure InitGlobal where
  initialized : Bool
  started : Nat
deriving DecidableEq, Repr

/-- One caller's progress through `ensureInitialized`. -/
inductive CallerPhase where
  | idle
  | working (awaitsLeft : Nat)
  | finished
deriving DecidableEq, Repr

/-- Number of suspension points modelled inside `ensureInitialized` (the
dynamic imports and the highlighter construction). -/
def INIT_AWAITS : Nat := 3

/-- One scheduler-chosen step of one caller: entering checks the flag
(returning immediately when set, otherwise beginning a fresh
initialization), intermediate steps complete one `await`, the final step
sets the flag. -/
def initStep (g : InitGlobal) : CallerPhase → InitGlobal × CallerPhase
  | .idle =>
    if g.initialized then (g, .finished)
    else ({ g with started := g.started + 1 }, .working INIT_AWAITS)
  | .working 0 => ({ g with initialized := true }, .finished)
  | .working (k + 1) => (g, .working k)
  | .finished => (g, .finished)

/-- Run a schedule over two callers: `false` steps caller A, `true`
steps caller B. -/
def runInitSched : List Bool → InitGlobal × CallerPhase × CallerPhase →
    InitGlobal × CallerPhase × CallerPhase
  | [], s => s
  | b :: rest, (g, pa, pb) =>
    if b then
      let (g', pb') := initStep g pb
      runInitSched rest (g', pa, pb')
    else
      let (g', pa') := initStep g pa
      runInitSched rest (g', pa', pb)

/-- The initial configuration: flag unset, no initialization started, both
callers yet to enter. -/
def initConfig : InitGlobal × CallerPhase × CallerPhase :=
  ({ initialized := false, started := 0 }, .idle, .idle)

/-! Concrete fixtures used by witnesses and counterexamples. -/

/-- A render environment with no highlighter and no terminal columns. -/
def renvNone : RenderEnv where
  hl := none
  chalkCached := false
  stdoutCols := none

/-- A render context at the given width with the renderer's own theme. -/
def mkCtx (w : Int) : RenderContext where
  width := w
  indentLevel := 0
  theme := defaultTheme
  interactive := false

/-- The initial module state: uninitialized, both caches empty. -/
def st0 : RState where
  initialized := false
  astCache := []
  renderCache := []
  cachedWidth := none

/-- A pipeline environment in which both the remark/shiki initialization
and the legacy marked pipeline fail. -/
def envBothFail : PipeEnv where
  remarkOk := false
  markedOk := false
  parse := fun _ => []
  markedRender := fun _ _ => []
  shikiTokens := fun _ _ => .error ()
  stdoutCols := none

/-- A pipeline environment in which remark/shiki initialization fails but
the legacy marked pipeline works. -/
def envMarkedOnly : PipeEnv where
  remarkOk := false
  markedOk := true
  parse := fun _ => []
  markedRender := fun _ _ => []
  shikiTokens := fun _ _ => .error ()
  stdoutCols := none

/-- C10: For the empty markdown input (the only falsy string),
`renderMarkdownToAnsi` returns the empty string immediately and leaves the
whole module state — initialization flag, AST cache, render cache —
untouched: no initialization, no cache read or write. -/
theorem c10_empty_input_short_circuit (env : PipeEnv) (st : RState)
    (w : Option Int) : renderMarkdownToAnsi env st "" w = (.ok [], st) := by
  simp [renderMarkdownToAnsi]

/-- C9: the claim that a second concurrent caller awaits the in-flight
initialization is violated by the code: the only guard is the boolean
`initialized`, set after the last await, so the schedule in which caller B
enters while caller A sits at its first suspension point starts a second
initialization (`started = 2`), while a sequential schedule starts only
one. -/
theorem c9_duplicate_init_under_interleaving :
    (runInitSched [false, true, false, true, false, true, false, true, false, true]
        initConfig).1 = { initialized := true, started := 2 } ∧
    (runInitSched [false, false, false, false, false, true] initConfig).1 =
      { initialized := true, started := 1 } := by
  decide

/-- C1 fails as stated: with both pipelines failing (e.g. the remark
imports and the marked import both throwing), the error of the legacy
pipeline propagates out of `renderMarkdownToAnsi` — the `try/catch` only
guards the remark/shiki attempt, not the fallback. -/
theorem c1_counterexample :
    (renderMarkdownToAnsi envBothFail st0 "hi" (some 80)).1 = .error () := by
  rfl

/-- C1 (amended): every failure of the remark/shiki pipeline is caught and
the call falls back to the legacy marked-terminal pipeline; the contract
is total whenever the legacy pipeline itself succeeds (a failure of the
legacy pipeline is not caught and propagates). -/
theorem c1_total_when_marked_ok (env : PipeEnv) (st : RState) (md : String)
    (w : Option Int) (hm : env.markedOk = true) :
    ∃ r st', renderMarkdownToAnsi env st md w = (.ok r, st') := by
  unfold renderMarkdownToAnsi
  by_cases he : md = ""
  · exact ⟨[], st, by simp [he]⟩
  · simp only [if_neg he]
    cases h : renderWithRemarkShiki env st md (targetWidthOf w env.stdoutCols) with
    | ok p =>
      exact ⟨p.1, { p.2 with cachedWidth := some (targetWidthOf w env.stdoutCols) }, by
        simp [h]⟩
    | error e =>
      refine ⟨env.markedRender md (targetWidthOf w env.stdoutCols),
        { st with cachedWidth := some (targetWidthOf w env.stdoutCols) }, ?_⟩
      simp [h, renderWithMarked, hm]

/-- C1 witness: the amended totality at a concrete environment where the
legacy pipeline works. -/
theorem c1_total_when_marked_ok_witness :
    ∃ r st', renderMarkdownToAnsi envMarkedOnly st0 "hi" (some 80) = (.ok r, st') :=
  c1_total_when_marked_ok envMarkedOnly st0 "hi" (some 80) rfl

/-- C4 fails as stated: a numeric width is used unchanged, so width `0`
renders with target width `0` (not the claimed default of 80, and below
the claimed minimum of 1), and an absent width defaults to
`process.stdout.columns` (100 here), not to 80. -/
theorem c4_counterexample :
    (renderMarkdownToAnsi envMarkedOnly st0 "hi" (some 0)).2.cachedWidth = some 0 ∧
    (renderMarkdownToAnsi envMarkedOnly st0 "hi" (some 0)).2.cachedWidth ≠ some 80 ∧
    targetWidthOf (some 0) (some 100) = 0 ∧
    ¬ (1 ≤ targetWidthOf (some 0) (some 100)) ∧
    targetWidthOf none (some 100) = 100 := by
  refine ⟨rfl, by decide, by decide, by decide, by decide⟩

/-- C4 (amended): when the width argument is absent the target width is
`process.stdout.columns` when defined and 80 otherwise; a numeric width —
zero and negative values included — is used unchanged, with no defaulting
and no clamping to a minimum of 1. -/
theorem c4_width_passthrough (env : PipeEnv) (st : RState) (md : String)
    (v : Int) (hmd : md ≠ "") (hm : env.markedOk = true) :
    (renderMarkdownToAnsi env st md (some v)).2.cachedWidth = some v ∧
    (renderMarkdownToAnsi env st md none).2.cachedWidth =
      some (env.stdoutCols.getD 80) := by
  constructor
  · unfold renderMarkdownToAnsi
    simp only [if_neg hmd]
    cases h : renderWithRemarkShiki env st md (targetWidthOf (some v) env.stdoutCols) with
    | ok p => simp [h, targetWidthOf]
    | error e => simp [h, renderWithMarked, hm, targetWidthOf]
  · unfold renderMarkdownToAnsi
    simp only [if_neg hmd]
    cases h : renderWithRemarkShiki env st md (targetWidthOf none env.stdoutCols) with
    | ok p => simp [h, targetWidthOf]
    | error e => simp [h, renderWithMarked, hm, targetWidthOf]

/-- C4 witness: the amended width handling at a concrete call. -/
theorem c4_width_passthrough_witness :
    (renderMarkdownToAnsi envMarkedOnly st0 "hi" (some 0)).2.cachedWidth = some 0 ∧
    (renderMarkdownToAnsi envMarkedOnly st0 "hi" none).2.cachedWidth = some 80 := by
  have h := c4_width_passthrough envMarkedOnly st0 "hi" 0 (by decide) rfl
  exact ⟨h.1, by simpa using h.2⟩

theorem stripAnsi_cons_chr (c : Char) (t : AText) :
    stripAnsi (Seg.chr c :: t) = c :: stripAnsi t := by
  simp [stripAnsi, List.filterMap_cons]

theorem stripAnsi_cons_esc (e : String) (t : AText) :
    stripAnsi (Seg.esc e :: t) = stripAnsi t := by
  simp [stripAnsi, List.filterMap_cons]

/-- C5 fails as stated: a depth-3 heading renders with no literal `#`
prefix at all — its ANSI-stripped text is exactly the heading content. -/
theorem c5_counterexample :
    stripAnsi (renderBlock renvNone (.heading 3 [.text "abc"]) (mkCtx 80)) = "abc".data ∧
    Seg.chr '#' ∉ renderBlock renvNone (.heading 3 [.text "abc"]) (mkCtx 80) := by
  have h : renderBlock renvNone (.heading 3 [.text "abc"]) (mkCtx 80) =
      chalkGreen (chalkBold (ofString "abc")) := by
    simp [renderBlock, renderInlines, renderInline, mkCtx, defaultTheme]
  rw [h]
  constructor
  · decide
  · decide

/-- C5 (amended): headings of depth 1, 2 and 3 each receive their own full
styled treatment with no `#` prefix; depth 4 and above receive the
depth-4 treatment with a literal `#` prefix whose hash count is the depth
clamped to at most 6 (and at least 1). -/
theorem c5_heading_depth_dispatch (env : RenderEnv) (d : Nat)
    (ks : List MdNode) (ctx : RenderContext) (hth : ctx.theme = defaultTheme) :
    stripAnsi (renderBlock env (.heading d ks) ctx) =
      (if d = 1 ∨ d = 2 ∨ d = 3 then stripAnsi (renderInlines ks ctx)
       else List.replicate (max 1 (min 6 d)) '#' ++ ' ' ::
         stripAnsi (renderInlines ks ctx)) := by
  by_cases h1 : d = 1
  · simp [renderBlock, h1, hth, defaultTheme, stripAnsi_escWrap, chalkCyan, chalkBold]
  · by_cases h2 : d = 2
    · simp [renderBlock, h2, hth, defaultTheme, stripAnsi_escWrap, chalkBlue, chalkBold]
    · by_cases h3 : d = 3
      · simp [renderBlock, h3, hth, defaultTheme, stripAnsi_escWrap, chalkGreen, chalkBold]
      · simp only [renderBlock, if_neg h1, if_neg h2, if_neg h3, hth, defaultTheme]
        rw [show (if d = 1 ∨ d = 2 ∨ d = 3 then stripAnsi (renderInlines ks ctx)
            else List.replicate (max 1 (min 6 d)) '#' ++ ' ' ::
              stripAnsi (renderInlines ks ctx)) =
            List.replicate (max 1 (min 6 d)) '#' ++ ' ' ::
              stripAnsi (renderInlines ks ctx) from if_neg (by tauto)]
        rw [chalkYellow, chalkBold, stripAnsi_escWrap, stripAnsi_escWrap,
          stripAnsi_append, stripAnsi_repChr, stripAnsi_cons_chr]

/-- C5 witness: the amended dispatch at a concrete depth-5 heading. -/
theorem c5_heading_depth_dispatch_witness :
    stripAnsi (renderBlock renvNone (.heading 5 [.text "abc"]) (mkCtx 80)) =
      List.replicate 5 '#' ++ ' ' :: "abc".data := by
  have h := c5_heading_depth_dispatch renvNone 5 [.text "abc"] (mkCtx 80) rfl
  rw [h]
  have h2 : stripAnsi (renderInlines [.text "abc"] (mkCtx 80)) = "abc".data := by
    decide
  simp [h2]

/-! Association-list map lemmas for the LRU claims. -/

theorem mapGet_none_of_not_mem {K V : Type} [DecidableEq K]
    {m : List (K × V)} {k : K} (h : k ∉ m.map Prod.fst) : mapGet m k = none := by
  induction m with
  | nil => rfl
  | cons p rest ih =>
    obtain ⟨k', v'⟩ := p
    simp only [List.map_cons, List.mem_cons] at h
    push_neg at h
    have hne : k' ≠ k := fun he => h.1 he.symm
    simp [mapGet, hne, ih h.2]

theorem mapSet_append {K V : Type} [DecidableEq K] {m : List (K × V)} {k : K}
    (h : mapGet m k = none) (v : V) : mapSet m k v = m ++ [(k, v)] := by
  induction m with
  | nil => rfl
  | cons p rest ih =>
    obtain ⟨k', v'⟩ := p
    by_cases he : k' = k
    · simp [mapGet, he] at h
    · simp only [mapGet, if_neg he] at h
      simp [mapSet, he, ih h]

theorem mapDelete_eq_self {K V : Type} [DecidableEq K] {m : List (K × V)}
    {k : K} (h : mapGet m k = none) : mapDelete m k = m := by
  induction m with
  | nil => rfl
  | cons p rest ih =>
    obtain ⟨k', v'⟩ := p
    by_cases he : k' = k
    · simp [mapGet, he] at h
    · simp only [mapGet, if_neg he] at h
      simp [mapDelete, he, ih h]

theorem mapDelete_length {K V : Type} [DecidableEq K] {m : List (K × V)}
    {k : K} {v0 : V} (h : mapGet m k = some v0) :
    (mapDelete m k).length + 1 = m.length := by
  induction m with
  | nil => simp [mapGet] at h
  | cons p rest ih =>
    obtain ⟨k', v'⟩ := p
    by_cases he : k' = k
    · simp [mapDelete, he]
    · simp only [mapGet, if_neg he] at h
      simp [mapDelete, he, ← ih h]

theorem mapGet_mapDelete_of_nodup {K V : Type} [DecidableEq K]
    {m : List (K × V)} {k : K} (hnd : (m.map Prod.fst).Nodup) :
    mapGet (mapDelete m k) k = none := by
  induction m with
  | nil => rfl
  | cons p rest ih =>
    obtain ⟨k', v'⟩ := p
    simp only [List.map_cons, List.nodup_cons] at hnd
    by_cases he : k' = k
    · simp only [mapDelete, if_pos he]
      exact mapGet_none_of_not_mem (he ▸ hnd.1)
    · simp [mapDelete, he, mapGet, ih hnd.2]

/-- C7: the caches are LRU-bounded maps.  With unique keys and a positive
bound: (i) an insertion never leaves the map above its bound; (ii) a read
of an existing key promotes exactly that entry to the most-recently-used
end, leaving the others in order; (iii) an insertion that overflows the
bound evicts exactly the least-recently-used (first) entry. -/
theorem c7_lru_bounded_promote_evict {K V : Type} [DecidableEq K]
    (m : List (K × V)) (k : K) (v : V) (bound : Nat)
    (hnd : (m.map Prod.fst).Nodup) (hb : 1 ≤ bound) :
    ((m.length ≤ bound) → (lruSet m k v bound).length ≤ bound) ∧
    (∀ v0, mapGet m k = some v0 →
      lruGet m k = (some v0, mapDelete m k ++ [(k, v0)])) ∧
    (m.length = bound → mapGet m k = none →
      lruSet m k v bound = m.tail ++ [(k, v)]) := by
  refine ⟨?_, ?_, ?_⟩
  · intro hlen
    cases hg : mapGet m k with
    | some v0 =>
      have hdel : mapGet (mapDelete m k) k = none := mapGet_mapDelete_of_nodup hnd
      have hdl : (mapDelete m k).length + 1 = m.length := mapDelete_length hg
      have hset := mapSet_append hdel v
      simp only [lruSet, mapHas, hg, Option.isSome_some, if_true, hset]
      have hlen2 : (mapDelete m k ++ [(k, v)]).length = m.length := by
        simp [List.length_append]
        omega
      rw [if_neg (by omega)]
      omega
    | none =>
      have hset := mapSet_append hg v
      simp only [lruSet, mapHas, hg, Option.isSome_none, Bool.false_eq_true,
        if_false, hset]
      by_cases hov : bound < (m ++ [(k, v)]).length
      · rw [if_pos hov]
        cases m with
        | nil => simp [mapDelete]
        | cons p rest =>
          obtain ⟨k0, v0⟩ := p
          simp only [List.cons_append]
          simp [mapDelete]
          simp at hlen
          omega
      · rw [if_neg hov]
        simp [List.length_append] at hov ⊢
        omega
  · intro v0 hg
    have hdel : mapGet (mapDelete m k) k = none := mapGet_mapDelete_of_nodup hnd
    simp [lruGet, hg, mapSet_append hdel v0]
  · intro hlen hg
    have hset := mapSet_append hg v
    simp only [lruSet, mapHas, hg, Option.isSome_none, Bool.false_eq_true,
      if_false, hset]
    have hov : bound < (m ++ [(k, v)]).length := by
      simp [List.length_append]
      omega
    rw [if_pos hov]
    cases m with
    | nil => simp at hlen; omega
    | cons p rest =>
      obtain ⟨k0, v0⟩ := p
      simp only [List.cons_append]
      simp [mapDelete]

/-- C7 witness: the three LRU properties at a concrete two-entry map with
bound 2. -/
theorem c7_lru_bounded_promote_evict_witness :
    (lruSet [(1, 10), (2, 20)] 3 30 2).length ≤ 2 ∧
    lruGet [(1, 10), (2, 20)] 1 = (some 10, mapDelete [(1, 10), (2, 20)] 1 ++ [(1, 10)]) ∧
    lruSet [(1, 10), (2, 20)] 3 (30 : Nat) 2 = [(1, 10), (2, 20)].tail ++ [(3, 30)] := by
  have h := c7_lru_bounded_promote_evict [(1, 10), (2, 20)] 3 (30 : Nat) 2
    (by decide) (by decide)
  refine ⟨h.1 (by decide), ?_, h.2.2 (by decide) (by decide)⟩
  have h2 := c7_lru_bounded_promote_evict [(1, 10), (2, 20)] 1 (99 : Nat) 2
    (by decide) (by decide)
  exact h2.2.1 10 (by decide)

/-! Decomposition lemmas for joins and wrapped output. -/

theorem joinOnChr_cons {c : Char} {A : AText} {Ls : List AText} (h : Ls ≠ []) :
    joinOnChr c (A :: Ls) = A ++ Seg.chr c :: joinOnChr c Ls := by
  cases Ls with
  | nil => exact absurd rfl h
  | cons B rest => rfl

theorem joinOnChr_append {c : Char} {A B : List AText} (ha : A ≠ [])
    (hb : B ≠ []) :
    joinOnChr c (A ++ B) = joinOnChr c A ++ Seg.chr c :: joinOnChr c B := by
  induction A with
  | nil => exact absurd rfl ha
  | cons x A' ih =>
    cases A' with
    | nil =>
      simp only [List.cons_append, List.nil_append]
      rw [joinOnChr_cons hb]
      rfl
    | cons y A'' =>
      have h1 : A'' ≠ [] ∨ A'' = [] := (em _).symm.imp id id
      have hne : (y :: A'') ++ B ≠ [] := by simp
      rw [List.cons_append, joinOnChr_cons hne, ih (by simp),
        joinOnChr_cons (by simp : y :: A'' ≠ [])]
      simp

theorem flatten_ne_nil {Ls : List (List AText)} (hne : Ls ≠ [])
    (h : ∀ L ∈ Ls, L ≠ []) : Ls.flatten ≠ [] := by
  cases Ls with
  | nil => exact absurd rfl hne
  | cons L rest =>
    have : L ≠ [] := h L (List.mem_cons_self _ _)
    cases L with
    | nil => exact absurd rfl this
    | cons a L' => simp

theorem joinOnChr_map_join {c : Char} {Ls : List (List AText)}
    (h : ∀ L ∈ Ls, L ≠ []) :
    joinOnChr c (Ls.map (joinOnChr c)) = joinOnChr c Ls.flatten := by
  induction Ls with
  | nil => rfl
  | cons L rest ih =>
    cases rest with
    | nil => simp [joinOnChr]
    | cons M rest' =>
      have hL : L ≠ [] := h L (List.mem_cons_self _ _)
      have hrest : ∀ X ∈ M :: rest', X ≠ [] := fun X hX => h X (List.mem_cons_of_mem _ hX)
      have hfl : (M :: rest').flatten ≠ [] := flatten_ne_nil (by simp) hrest
      rw [List.flatten_cons, joinOnChr_append hL hfl, List.map_cons,
        joinOnChr_cons (by simp), ih hrest, List.flatten_cons]

theorem greedyWrapGo_ne_nil {width : Nat} (ws : List AText) (cur : AText) :
    greedyWrapGo width cur ws ≠ [] := by
  induction ws generalizing cur with
  | nil => simp [greedyWrapGo]
  | cons w ws ih =>
    simp only [greedyWrapGo]
    split
    · exact ih _
    · simp

theorem chunkVisibleGo_ne_nil {width : Nat} (t : AText) (cur : AText) (k : Nat) :
    chunkVisibleGo width cur k t ≠ [] := by
  induction t generalizing cur k with
  | nil => simp [chunkVisibleGo]
  | cons s t ih =>
    cases s with
    | esc e => simpa [chunkVisibleGo] using ih _ _
    | chr c =>
      simp only [chunkVisibleGo]
      split
      · exact ih _ _
      · simp

theorem mem_chunkVisibleGo_sub {width : Nat} :
    ∀ (t cur : AText) (k : Nat) (ch : AText), ch ∈ chunkVisibleGo width cur k t →
      ∀ s ∈ ch, s ∈ cur ∨ s ∈ t := by
  intro t
  induction t with
  | nil =>
    intro cur k ch hch s hs
    simp only [chunkVisibleGo, List.mem_singleton] at hch
    exact Or.inl (hch ▸ hs)
  | cons x t ih =>
    intro cur k ch hch s hs
    cases x with
    | esc e =>
      simp only [chunkVisibleGo] at hch
      rcases ih _ _ ch hch s hs with h | h
      · rcases List.mem_append.mp h with h' | h'
        · exact Or.inl h'
        · exact Or.inr (List.mem_cons.mpr (Or.inl (List.mem_singleton.mp h')))
      · exact Or.inr (List.mem_cons_of_mem _ h)
    | chr c =>
      simp only [chunkVisibleGo] at hch
      split at hch
      · rcases ih _ _ ch hch s hs with h | h
        · rcases List.mem_append.mp h with h' | h'
          · exact Or.inl h'
          · exact Or.inr (List.mem_cons.mpr (Or.inl (List.mem_singleton.mp h')))
        · exact Or.inr (List.mem_cons_of_mem _ h)
      · rcases List.mem_cons.mp hch with h | h
        · exact Or.inl (h ▸ hs)
        · rcases ih _ _ ch h s hs with h' | h'
          · exact Or.inr (List.mem_cons.mpr (Or.inl (List.mem_singleton.mp h')))
          · exact Or.inr (List.mem_cons_of_mem _ h')

/-- Every segment of a greedy-wrapped line is a space or comes from one of
the words. -/
theorem mem_greedyWrap {width : Nat} {ws : List AText} {l : AText}
    (hl : l ∈ greedyWrap width ws) :
    ∀ s ∈ l, s = Seg.chr ' ' ∨ ∃ w ∈ ws, s ∈ w := by
  intro s hs
  cases ws with
  | nil => simp [greedyWrap] at hl
  | cons w ws =>
    rcases @greedyWrapGo_mem width ws w l hl s hs with h | h | ⟨w', hw', hsw⟩
    · exact Or.inl h
    · exact Or.inr ⟨w, List.mem_cons_self _ _, h⟩
    · exact Or.inr ⟨w', List.mem_cons_of_mem _ hw', hsw⟩

/-- Lines produced by hard wrapping a newline-free line are newline-free. -/
theorem noNL_wrapLineHard {width : Nat} {ln l : AText} (h : NoNL ln)
    (hl : l ∈ wrapLineHard width ln) : NoNL l := by
  intro hmem
  rcases mem_greedyWrap hl _ hmem with h' | ⟨w', hw', hsw⟩
  · exact absurd h'.symm (by simp)
  · rcases List.mem_flatMap.mp hw' with ⟨wd, hwd, hchunk⟩
    rcases mem_chunkVisibleGo_sub wd [] 0 w' hchunk _ hsw with h' | h'
    · simp at h'
    · exact h ((mem_splitOnChr hwd).2 _ h')

/-- Lines produced by soft wrapping a newline-free line are newline-free. -/
theorem noNL_wrapLineSoft {width : Nat} {ln l : AText} (h : NoNL ln)
    (hl : l ∈ wrapLineSoft width ln) : NoNL l := by
  intro hmem
  rcases mem_greedyWrap hl _ hmem with h' | ⟨w', hw', hsw⟩
  · exact absurd h'.symm (by simp)
  · exact h ((mem_splitOnChr hw').2 _ hsw)

theorem wrapLineSoft_ne_nil (width : Nat) (ln : AText) :
    wrapLineSoft width ln ≠ [] := by
  unfold wrapLineSoft
  cases h : splitWords ln with
  | nil => exact absurd h (splitOnChr_ne_nil _ _)
  | cons w ws => exact greedyWrapGo_ne_nil ws w

theorem wrapLineHard_ne_nil (width : Nat) (ln : AText) :
    wrapLineHard width ln ≠ [] := by
  unfold wrapLineHard
  cases h : (splitWords ln).flatMap (chunkVisible width) with
  | nil =>
    cases hs : splitWords ln with
    | nil => exact absurd hs (splitOnChr_ne_nil _ _)
    | cons w ws =>
      rw [hs, List.flatMap_cons] at h
      cases hc : chunkVisible width w with
      | nil => exact absurd hc (chunkVisibleGo_ne_nil _ _ _)
      | cons a b => rw [hc] at h; simp at h
  | cons w ws => exact greedyWrapGo_ne_nil ws w

/-! Box geometry. -/

theorem stringWidth_cons_chr (c : Char) (t : AText) :
    stringWidth (Seg.chr c :: t) = stringWidth t + 1 := by
  simp [stringWidth, stripAnsi_cons_chr]

theorem stringWidth_cons_esc (e : String) (t : AText) :
    stringWidth (Seg.esc e :: t) = stringWidth t := by
  simp [stringWidth, stripAnsi_cons_esc]

theorem boxWidthOf_ge_40 (w widthLocal : Int) (cols : Option Int) :
    40 ≤ boxWidthOf w widthLocal cols := by
  unfold boxWidthOf
  have h1 : (40 : Int) ≤ max 40 (min (currentWidthOf w cols) widthLocal) :=
    le_max_left _ _
  omega

theorem innerWidthOf_eq (w widthLocal : Int) (cols : Option Int) :
    innerWidthOf w widthLocal cols = boxWidthOf w widthLocal cols - 4 := by
  have := boxWidthOf_ge_40 w widthLocal cols
  unfold innerWidthOf
  omega

/-- The flattened list of framed content lines of a code box. -/
def boxFramedLines (content : AText) (w widthLocal : Int)
    (cols : Option Int) : List AText :=
  ((splitLines content).map fun line =>
    (wrapLineHard (innerWidthOf w widthLocal cols) line).map
      (frameLine (innerWidthOf w widthLocal cols))).flatten

theorem joinLines_map_join {Ls : List (List AText)} (h : ∀ L ∈ Ls, L ≠ []) :
    joinLines (Ls.map joinLines) = joinLines Ls.flatten :=
  joinOnChr_map_join h

theorem joinLines_three {a b : AText} {FR : List AText} (h : FR ≠ []) :
    joinLines [a, joinLines FR, b] = joinLines (a :: FR ++ [b]) := by
  show joinOnChr '\n' _ = joinOnChr '\n' _
  have h1 : FR ++ [b] ≠ [] := by simp
  rw [List.cons_append, joinOnChr_cons h1, joinOnChr_append h (by simp)]
  rfl

theorem boxCode_decomp (content : AText) (widthLocal : Int) (lang : String)
    (ctx : RenderContext) (cols : Option Int) :
    boxCode content widthLocal lang ctx cols =
      joinLines (boxTop ctx.width widthLocal lang ctx.theme cols ::
        boxFramedLines content ctx.width widthLocal cols ++
          [boxBottom ctx.width widthLocal cols]) := by
  unfold boxCode boxFramedLines
  dsimp only
  have hmm : ((splitLines content).map fun line =>
      joinLines ((wrapLineHard (innerWidthOf ctx.width widthLocal cols) line).map
        (frameLine (innerWidthOf ctx.width widthLocal cols)))) =
      (((splitLines content).map fun line =>
        (wrapLineHard (innerWidthOf ctx.width widthLocal cols) line).map
          (frameLine (innerWidthOf ctx.width widthLocal cols))).map joinLines) := by
    rw [List.map_map]
    rfl
  rw [hmm, joinLines_map_join ?hne]
  case hne =>
    intro L hL
    rcases List.mem_map.mp hL with ⟨line, _, hmap⟩
    subst hmap
    simp only [ne_eq, List.map_eq_nil_iff]
    exact wrapLineHard_ne_nil _ _
  refine joinLines_three (flatten_ne_nil ?_ ?_)
  · simp only [ne_eq, List.map_eq_nil_iff]
    exact splitOnChr_ne_nil _ _
  · intro L hL
    rcases List.mem_map.mp hL with ⟨line, _, hmap⟩
    subst hmap
    simp only [ne_eq, List.map_eq_nil_iff]
    exact wrapLineHard_ne_nil _ _

theorem labelRaw_data (lang : String) :
    (" " ++ lang ++ " ").data = (' ' :: lang.data) ++ [' '] := by
  rw [String.data_append, String.data_append]
  rfl

theorem stringWidth_chalkYellow (t : AText) :
    stringWidth (chalkYellow t) = stringWidth t :=
  stringWidth_escWrap _ _ t

theorem stringWidth_nil : stringWidth [] = 0 := rfl

theorem stringWidth_boxTop (w widthLocal : Int) (lang : String)
    (cols : Option Int)
    (hfit : lang.data.length + 2 ≤ boxWidthOf w widthLocal cols - 2) :
    stringWidth (boxTop w widthLocal lang defaultTheme cols) =
      boxWidthOf w widthLocal cols := by
  have hbw := boxWidthOf_ge_40 w widthLocal cols
  unfold boxTop
  dsimp only
  by_cases h1 : lang ≠ "" ∧ lang ≠ "text"
  · have h2 : (" " ++ lang ++ " ") ≠ "" := by
      intro he
      have hd := congrArg String.data he
      rw [labelRaw_data] at hd
      simp at hd
    have hcode : defaultTheme.code = chalkYellow := rfl
    have h3 : defaultTheme.code (ofString (" " ++ lang ++ " ")) ≠ [] := by
      rw [hcode]
      simp [chalkYellow, escWrap]
    rw [if_pos h1, if_pos h2, if_pos h3]
    have hlw : stringWidth (defaultTheme.code (ofString (" " ++ lang ++ " "))) =
        lang.data.length + 2 := by
      rw [hcode, stringWidth_chalkYellow, stringWidth_ofString, labelRaw_data]
      simp
    simp only [stringWidth_append, stringWidth_cons_chr, stringWidth_repChr,
      stringWidth_nil, hlw]
    omega
  · rw [if_neg h1, if_neg (by simp : ¬(("" : String) ≠ "")),
      if_neg (by simp : ¬(([] : AText) ≠ []))]
    simp only [stringWidth_append, stringWidth_cons_chr, stringWidth_repChr,
      stringWidth_nil]
    omega

theorem noNL_boxTop (w widthLocal : Int) (lang : String) (cols : Option Int)
    (hnl : '\n' ∉ lang.data) :
    NoNL (boxTop w widthLocal lang defaultTheme cols) := by
  unfold boxTop
  dsimp only
  by_cases h1 : lang ≠ "" ∧ lang ≠ "text"
  · have h2 : (" " ++ lang ++ " ") ≠ "" := by
      intro he
      have hd := congrArg String.data he
      rw [labelRaw_data] at hd
      simp at hd
    have hcode : defaultTheme.code = chalkYellow := rfl
    have h3 : defaultTheme.code (ofString (" " ++ lang ++ " ")) ≠ [] := by
      rw [hcode]
      simp [chalkYellow, escWrap]
    rw [if_pos h1, if_pos h2, if_pos h3]
    intro hmem
    rcases List.mem_append.mp hmem with hmem | hmem
    · rcases List.mem_append.mp hmem with hmem | hmem
      · rcases List.mem_cons.mp hmem with hmem | hmem
        · simp at hmem
        · rw [hcode] at hmem
          simp only [chalkYellow, escWrap] at hmem
          rcases List.mem_cons.mp hmem with hmem | hmem
          · simp at hmem
          · rcases List.mem_append.mp hmem with hmem | hmem
            · rcases List.mem_map.mp hmem with ⟨c, hc, he⟩
              rw [labelRaw_data] at hc
              cases he
              rcases List.mem_append.mp hc with hc | hc
              · rcases List.mem_cons.mp hc with hc | hc
                · simp at hc
                · exact hnl (by simpa using hc)
              · simp at hc
            · simp at hmem
      · rcases List.mem_replicate.mp hmem with ⟨_, he⟩
        simp at he
    · simp at hmem
  · rw [if_neg h1, if_neg (by simp : ¬(("" : String) ≠ "")),
      if_neg (by simp : ¬(([] : AText) ≠ []))]
    intro hmem
    rcases List.mem_append.mp hmem with hmem | hmem
    · rcases List.mem_cons.mp hmem with hmem | hmem
      · simp at hmem
      · rcases List.mem_replicate.mp hmem with ⟨_, he⟩
        simp at he
    · simp at hmem

theorem stringWidth_boxBottom (w widthLocal : Int) (cols : Option Int) :
    stringWidth (boxBottom w widthLocal cols) = boxWidthOf w widthLocal cols := by
  have hbw := boxWidthOf_ge_40 w widthLocal cols
  unfold boxBottom
  simp only [stringWidth_append, stringWidth_cons_chr, stringWidth_repChr,
    stringWidth_nil]
  omega

theorem noNL_boxBottom (w widthLocal : Int) (cols : Option Int) :
    NoNL (boxBottom w widthLocal cols) := by
  unfold boxBottom
  intro hmem
  rcases List.mem_append.mp hmem with hmem | hmem
  · rcases List.mem_cons.mp hmem with hmem | hmem
    · simp at hmem
    · rcases List.mem_replicate.mp hmem with ⟨_, he⟩
      simp at he
  · simp at hmem

theorem stringWidth_frameLine (iw : Nat) (wl : AText) :
    stringWidth (frameLine iw wl) = iw + 4 := by
  unfold frameLine
  dsimp only
  by_cases h : iw < stringWidth wl
  · rw [if_pos h]
    simp only [stringWidth_append, stringWidth_cons_chr, stringWidth_repChr,
      stringWidth_nil, stringWidth_takeVisible]
    omega
  · rw [if_neg h]
    simp only [stringWidth_append, stringWidth_cons_chr, stringWidth_repChr,
      stringWidth_nil]
    omega

theorem noNL_frameLine {iw : Nat} {wl : AText} (h : NoNL wl) :
    NoNL (frameLine iw wl) := by
  unfold frameLine
  dsimp only
  intro hmem
  rcases List.mem_append.mp hmem with hmem | hmem
  · rcases List.mem_append.mp hmem with hmem | hmem
    · rcases List.mem_cons.mp hmem with hmem | hmem
      · simp at hmem
      · rcases List.mem_cons.mp hmem with hmem | hmem
        · simp at hmem
        · split at hmem
          · exact h (mem_takeVisible_sub hmem)
          · exact h hmem
    · rcases List.mem_replicate.mp hmem with ⟨_, he⟩
      simp at he
  · rcases List.mem_cons.mp hmem with hmem | hmem
    · simp at hmem
    · simp at hmem

theorem mem_boxFramedLines {content : AText} {w widthLocal : Int}
    {cols : Option Int} {l : AText}
    (hl : l ∈ boxFramedLines content w widthLocal cols) :
    ∃ wl, NoNL wl ∧ l = frameLine (innerWidthOf w widthLocal cols) wl := by
  unfold boxFramedLines at hl
  rcases List.mem_flatten.mp hl with ⟨L, hL, hlL⟩
  rcases List.mem_map.mp hL with ⟨line, hline, hmap⟩
  subst hmap
  rcases List.mem_map.mp hlL with ⟨wl, hwl, hframe⟩
  exact ⟨wl, noNL_wrapLineHard (mem_splitOnChr hline).1 hwl, hframe.symm⟩

theorem splitLines_joinLines {Ls : List AText} (hne : Ls ≠ [])
    (h : ∀ l ∈ Ls, NoNL l) : splitLines (joinLines Ls) = Ls :=
  splitOnChr_joinOnChr hne h

theorem boxCode_splitLines (content : AText) (widthLocal : Int) (lang : String)
    (ctx : RenderContext) (cols : Option Int) (hth : ctx.theme = defaultTheme)
    (hnl : '\n' ∉ lang.data) :
    splitLines (boxCode content widthLocal lang ctx cols) =
      boxTop ctx.width widthLocal lang ctx.theme cols ::
        boxFramedLines content ctx.width widthLocal cols ++
          [boxBottom ctx.width widthLocal cols] := by
  rw [boxCode_decomp]
  apply splitLines_joinLines (by simp)
  intro l hl
  rcases List.mem_cons.mp hl with h | h
  · subst h
    rw [hth]
    exact noNL_boxTop _ _ _ _ hnl
  · rcases List.mem_append.mp h with h | h
    · rcases mem_boxFramedLines h with ⟨wl, hwl, hframe⟩
      exact hframe ▸ noNL_frameLine hwl
    · rw [List.mem_singleton.mp h]
      exact noNL_boxBottom _ _ _

/-- Shared geometry lemma: under the renderer's theme, with a single-line
language tag whose label fits in the border, every line of a rendered code
box has visible width exactly the box width. -/
theorem boxCode_lines_width (content : AText) (widthLocal : Int)
    (lang : String) (ctx : RenderContext) (cols : Option Int)
    (hth : ctx.theme = defaultTheme) (hnl : '\n' ∉ lang.data)
    (hfit : lang.data.length + 2 ≤ boxWidthOf ctx.width widthLocal cols - 2) :
    ∀ l ∈ splitLines (boxCode content widthLocal lang ctx cols),
      stringWidth l = boxWidthOf ctx.width widthLocal cols := by
  intro l hl
  rw [boxCode_splitLines content widthLocal lang ctx cols hth hnl] at hl
  have hbw := boxWidthOf_ge_40 ctx.width widthLocal cols
  rcases List.mem_cons.mp hl with h | h
  · subst h
    rw [hth]
    exact stringWidth_boxTop _ _ _ _ hfit
  · rcases List.mem_append.mp h with h | h
    · rcases mem_boxFramedLines h with ⟨wl, _, hframe⟩
      rw [hframe, stringWidth_frameLine, innerWidthOf_eq]
      omega
    · rw [List.mem_singleton.mp h]
      exact stringWidth_boxBottom _ _ _

theorem headD_mem_of_ne_nil {α : Type} (l : List α) (d : α) (h : l ≠ []) :
    l.headD d ∈ l := by
  cases l with
  | nil => exact absurd rfl h
  | cons x t => simp

/-- A 37-character language tag: its label is wider than the border of a
40-column box. -/
def langLong : String := "aaaaaaaaaaaaaaaaaaaaaaaaaaaaaaaaaaaaa"

/-- C2 fails as stated: with a 37-character language tag at requested
width 40 the label does not fit, and the top border has visible width 41
while `boxWidth` is 40 — the content lines and bottom border are still
exactly 40. -/
theorem c2_counterexample :
    (splitLines (boxCode (ofString "x") 40 langLong (mkCtx 40) none)).map
        stringWidth = [41, 40, 40] ∧
      boxWidthOf 40 40 none = 40 := by
  decide

/-- C2 (amended): `boxWidth = max(40, min(currentTerminalWidth, w))` and
`innerWidth = boxWidth - 4`; content lines are wrapped to `innerWidth`,
sliced by visible width if still longer, padded to exactly `innerWidth`
and framed; every content line and the bottom border have visible width
exactly `boxWidth`, and the top border does too provided the (single-line)
language label fits in the border, i.e. its visible width
`lang.length + 2` is at most `boxWidth - 2` — an overlong language tag
makes the top border wider than `boxWidth`. -/
theorem c2_box_geometry (content : AText) (widthLocal : Int) (lang : String)
    (ctx : RenderContext) (cols : Option Int) (hth : ctx.theme = defaultTheme)
    (hnl : '\n' ∉ lang.data)
    (hfit : lang.data.length + 2 ≤ boxWidthOf ctx.width widthLocal cols - 2) :
    boxWidthOf ctx.width widthLocal cols =
      (max 40 (min (currentWidthOf ctx.width cols) widthLocal)).toNat ∧
    innerWidthOf ctx.width widthLocal cols =
      boxWidthOf ctx.width widthLocal cols - 4 ∧
    ∀ l ∈ splitLines (boxCode content widthLocal lang ctx cols),
      stringWidth l = boxWidthOf ctx.width widthLocal cols :=
  ⟨rfl, innerWidthOf_eq _ _ _,
    boxCode_lines_width content widthLocal lang ctx cols hth hnl hfit⟩

/-- C2 witness: the geometry at a concrete 60-column php fence. -/
theorem c2_box_geometry_witness :
    innerWidthOf 60 60 none = boxWidthOf 60 60 none - 4 ∧
    stringWidth ((splitLines (boxCode (ofString "hello") 60 "php" (mkCtx 60)
      none)).headD []) = boxWidthOf 60 60 none := by
  have h := c2_box_geometry (ofString "hello") 60 "php" (mkCtx 60) none rfl
    (by decide) (by decide)
  refine ⟨h.2.1, ?_⟩
  exact h.2.2 _ (headD_mem_of_ne_nil _ _ (splitOnChr_ne_nil _ _))

/-- A highlighter whose tokenization always throws (unsupported
language). -/
def shikiFail : ShikiFn := fun _ _ => .error ()

/-- C8: a failing highlighter is caught locally — `codeToAnsi` returns the
unhighlighted source when tokenization throws — and the code-block
renderer always routes the fence through `boxCode`, whatever the
highlighter state; consequently (third part) under the renderer's theme,
with a single-line language tag whose label fits, every output line of the
rendered fence has visible width exactly the box width, regardless of
highlighting availability. -/
theorem c8_code_fence_highlight_failure (f : ShikiFn) (value : String)
    (lang? : Option String) (env : RenderEnv) (ctx : RenderContext) :
    (f value (lang?.getD "text") = .error () →
      codeToAnsi f value (lang?.getD "text") = ofString value) ∧
    (∃ inner, renderBlock env (.code lang? value) ctx =
      boxCode inner ctx.width (lang?.getD "text") ctx env.stdoutCols) ∧
    (ctx.theme = defaultTheme → '\n' ∉ (lang?.getD "text").data →
      (lang?.getD "text").data.length + 2 ≤
        boxWidthOf ctx.width ctx.width env.stdoutCols - 2 →
      ∀ l ∈ splitLines (renderBlock env (.code lang? value) ctx),
        stringWidth l = boxWidthOf ctx.width ctx.width env.stdoutCols) := by
  have hbox : ∃ inner, renderBlock env (.code lang? value) ctx =
      boxCode inner ctx.width (lang?.getD "text") ctx env.stdoutCols := by
    cases hhl : env.hl with
    | some f' =>
      exact ⟨codeToAnsi f' value (lang?.getD "text"), by simp [renderBlock, hhl]⟩
    | none =>
      exact ⟨(if env.chalkCached then chalkYellow (ofString value)
        else ofString value), by simp [renderBlock, hhl]⟩
  refine ⟨?_, hbox, ?_⟩
  · intro h
    simp [codeToAnsi, h]
  · intro hth hnl hfit l hl
    obtain ⟨inner, hi⟩ := hbox
    rw [hi] at hl
    exact boxCode_lines_width inner ctx.width (lang?.getD "text") ctx
      env.stdoutCols hth hnl hfit l hl

/-- A render environment whose highlighter is present but always fails. -/
def renvFail : RenderEnv where
  hl := some shikiFail
  chalkCached := true
  stdoutCols := none

/-- C8 witness: a concrete failing highlighter still yields the plain
source and a boxed render of the expected width. -/
theorem c8_code_fence_highlight_failure_witness :
    codeToAnsi shikiFail "co de" "weird" = ofString "co de" ∧
    (∃ inner, renderBlock renvFail (.code (some "weird") "co de") (mkCtx 50) =
      boxCode inner 50 "weird" (mkCtx 50) none) ∧
    stringWidth ((splitLines (renderBlock renvFail
      (.code (some "weird") "co de") (mkCtx 50))).headD []) = 50 := by
  have h := c8_code_fence_highlight_failure shikiFail "co de" (some "weird")
    renvFail (mkCtx 50)
  refine ⟨h.1 rfl, h.2.1, ?_⟩
  have hw := h.2.2 rfl (by decide) (by decide)
    ((splitLines (renderBlock renvFail (.code (some "weird") "co de")
      (mkCtx 50))).headD [])
    (headD_mem_of_ne_nil _ _ (splitOnChr_ne_nil _ _))
  have hbx : boxWidthOf (mkCtx 50).width (mkCtx 50).width renvFail.stdoutCols = 50 := by
    decide
  rw [← hbx]
  exact hw

/-! Digit-string lemmas (for list markers and cache keys). -/

theorem decDigit_mem_digits (d : Nat) :
    decDigit d ∈ "0123456789".data := by
  unfold decDigit
  split_ifs <;> decide

theorem decDigit_toNat {d : Nat} (h : d < 10) : (decDigit d).toNat = 48 + d := by
  unfold decDigit
  split_ifs with h0 h1 h2 h3 h4 h5 h6 h7 h8
  · subst h0; decide
  · subst h1; decide
  · subst h2; decide
  · subst h3; decide
  · subst h4; decide
  · subst h5; decide
  · subst h6; decide
  · subst h7; decide
  · subst h8; decide
  · have h9 : d = 9 := by omega
    subst h9; decide

theorem hexDigit_mem_digits (d : Nat) :
    hexDigit d ∈ "0123456789abcdef".data := by
  unfold hexDigit
  split_ifs
  · exact (by decide : ∀ c ∈ "0123456789".data,
      c ∈ "0123456789abcdef".data) _ (decDigit_mem_digits d)
  all_goals decide

theorem natChars_mem_digits {n : Nat} :
    ∀ c ∈ natChars n, ∃ d, d < 10 ∧ c = decDigit d := by
  induction n using Nat.strong_induction_on with
  | _ n ih =>
    rw [natChars]
    split
    · rename_i h
      intro c hc
      simp only [List.mem_singleton] at hc
      exact ⟨n, h, hc⟩
    · rename_i h
      intro c hc
      rcases List.mem_append.mp hc with h' | h'
      · exact ih (n / 10) (Nat.div_lt_self (by omega) (by omega)) c h'
      · simp only [List.mem_singleton] at h'
        exact ⟨n % 10, Nat.mod_lt _ (by omega), h'⟩

theorem natChars_ne_nil (n : Nat) : natChars n ≠ [] := by
  rw [natChars]
  split <;> simp

theorem natChars_head (n : Nat) :
    ∃ d rest, d < 10 ∧ natChars n = decDigit d :: rest := by
  induction n using Nat.strong_induction_on with
  | _ n ih =>
    rw [natChars]
    split
    · rename_i h
      exact ⟨n, [], h, rfl⟩
    · rename_i h
      obtain ⟨d, rest, hd, he⟩ := ih (n / 10) (Nat.div_lt_self (by omega) (by omega))
      exact ⟨d, rest ++ [decDigit (n % 10)], hd, by rw [he]; rfl⟩

/-- The decimal value of a digit string (inverse of `natChars`). -/
def valChars (l : List Char) : Nat :=
  l.foldl (fun a c => a * 10 + (c.toNat - 48)) 0

theorem valChars_natChars (n : Nat) : valChars (natChars n) = n := by
  induction n using Nat.strong_induction_on with
  | _ n ih =>
    rw [natChars]
    split
    · rename_i h
      simp [valChars, decDigit_toNat h]
    · rename_i h
      have hlt : n / 10 < n := Nat.div_lt_self (by omega) (by omega)
      have hv := ih (n / 10) hlt
      unfold valChars at hv ⊢
      rw [List.foldl_append]
      simp only [List.foldl_cons, List.foldl_nil]
      rw [hv, decDigit_toNat (Nat.mod_lt _ (by omega))]
      omega

theorem natChars_injective {a b : Nat} (h : natChars a = natChars b) : a = b := by
  have ha := valChars_natChars a
  rw [h, valChars_natChars b] at ha
  omega

theorem intChars_mem {i : Int} :
    ∀ c ∈ intChars i, c = '-' ∨ ∃ d, d < 10 ∧ c = decDigit d := by
  unfold intChars
  split
  · intro c hc
    rcases List.mem_cons.mp hc with h | h
    · exact Or.inl h
    · exact Or.inr (natChars_mem_digits c h)
  · intro c hc
    exact Or.inr (natChars_mem_digits c hc)

theorem intChars_ne_colon {i : Int} : ∀ c ∈ intChars i, c ≠ ':' := by
  intro c hc
  rcases intChars_mem c hc with h | ⟨d, _, h⟩
  · subst h; decide
  · subst h
    exact (by decide : ∀ c ∈ "0123456789".data, c ≠ ':') _ (decDigit_mem_digits d)

theorem intChars_ne_nl {i : Int} : ∀ c ∈ intChars i, c ≠ '\n' := by
  intro c hc
  rcases intChars_mem c hc with h | ⟨d, _, h⟩
  · subst h; decide
  · subst h
    exact (by decide : ∀ c ∈ "0123456789".data, c ≠ '\n') _ (decDigit_mem_digits d)

theorem intChars_injective {a b : Int} (h : intChars a = intChars b) : a = b := by
  unfold intChars at h
  split at h <;> split at h
  · rename_i ha hb
    simp only [List.cons.injEq] at h
    have := natChars_injective h.2
    omega
  · rename_i ha hb
    obtain ⟨d, rest, hd, he⟩ := natChars_head b.toNat
    rw [he] at h
    have hh : '-' = decDigit d := (List.cons.injEq _ _ _ _).mp h |>.1
    have := decDigit_mem_digits d
    rw [← hh] at this
    exact absurd this (by decide)
  · rename_i ha hb
    obtain ⟨d, rest, hd, he⟩ := natChars_head a.toNat
    rw [he] at h
    have hh : decDigit d = '-' := (List.cons.injEq _ _ _ _).mp h.symm |>.1 |>.symm
    have := decDigit_mem_digits d
    rw [hh] at this
    exact absurd this (by decide)
  · rename_i ha hb
    have := natChars_injective h
    omega

/-! Width bounds for wrapped output. -/

theorem foldrMax_ge {xs : List Nat} {a : Nat} (ha : a ∈ xs) :
    a ≤ xs.foldr max 0 := by
  induction xs with
  | nil => simp at ha
  | cons y ys ih =>
    rcases List.mem_cons.mp ha with hy | hy
    · subst hy
      exact le_max_left _ _
    · exact le_trans (ih hy) (le_max_right _ _)

theorem wrapLineSoft_bound {width : Nat} {ln l : AText}
    (hl : l ∈ wrapLineSoft width ln) :
    stringWidth l ≤ max width (maxWordWidth ln) := by
  unfold wrapLineSoft at hl
  refine greedyWrap_bound (le_max_left _ _) ?_ l hl
  intro w hw
  exact le_trans (foldrMax_ge (List.mem_map_of_mem stringWidth hw))
    (le_max_right _ _)

/-- The widest word on any line of (possibly multi-line) text. -/
def maxWordWidthAll (t : AText) : Nat :=
  ((splitLines t).map maxWordWidth).foldr max 0

theorem flatMap_ne_nil {α : Type} {Ls : List α} {f : α → List AText}
    (hne : Ls ≠ []) (h : ∀ x ∈ Ls, f x ≠ []) : Ls.flatMap f ≠ [] := by
  cases Ls with
  | nil => exact absurd rfl hne
  | cons x rest =>
    rw [List.flatMap_cons]
    have := h x (List.mem_cons_self _ _)
    cases hf : f x with
    | nil => exact absurd hf this
    | cons a b => simp

theorem splitLines_wrapAnsiSoft (t : AText) (width : Nat) :
    splitLines (wrapAnsiSoft t width) = (splitLines t).flatMap (wrapLineSoft width) := by
  unfold wrapAnsiSoft
  apply splitLines_joinLines
  · exact flatMap_ne_nil (splitOnChr_ne_nil _ _)
      (fun ln _ => wrapLineSoft_ne_nil width ln)
  · intro l hl
    rcases List.mem_flatMap.mp hl with ⟨ln, hln, hlw⟩
    exact noNL_wrapLineSoft (mem_splitOnChr hln).1 hlw

theorem wrapAnsiSoft_line_bound {t : AText} {width : Nat} {l : AText}
    (hl : l ∈ splitLines (wrapAnsiSoft t width)) :
    stringWidth l ≤ max width (maxWordWidthAll t) := by
  rw [splitLines_wrapAnsiSoft] at hl
  rcases List.mem_flatMap.mp hl with ⟨ln, hln, hlw⟩
  refine le_trans (wrapLineSoft_bound hlw) ?_
  have h2 : maxWordWidth ln ≤ maxWordWidthAll t :=
    foldrMax_ge (List.mem_map_of_mem maxWordWidth hln)
  omega

theorem noNL_markerStyledOf {ordered : Bool} {start : Int} {idx : Nat}
    (th : Theme) (hth : th = defaultTheme) :
    NoNL (markerStyledOf ordered start idx th) := by
  unfold markerStyledOf
  dsimp only
  cases ordered with
  | true =>
    simp only [if_pos rfl]
    intro hmem
    rcases List.mem_append.mp hmem with h | h
    · rcases List.mem_map.mp h with ⟨c, hc, he⟩
      exact intChars_ne_nl c hc (by simpa using he)
    · simp at h
  | false =>
    simp only [Bool.false_ne_true, if_false, hth]
    show NoNL (chalkCyan [Seg.chr '•'])
    simp only [chalkCyan, escWrap]
    intro hmem
    rcases List.mem_cons.mp hmem with h | h
    · simp at h
    · rcases List.mem_append.mp h with h' | h'
      · simp at h'
      · simp at h'

/-- The markdown source of the C3 counterexample: a paragraph of six
three-character words rendered at requested width 10. -/
def cex3Render : AText :=
  renderRoot renvNone [.paragraph [.text "aaa bbb ccc ddd eee fff"]] (mkCtx 10)

/-- C3 fails as stated: at requested width 10 the first output line of a
plain paragraph has visible width 19 — above the requested width even
though it consists of several space-separated (breakable) words and no
code box is involved — because the wrap width never drops below 20. -/
theorem c3_counterexample :
    stringWidth ((splitLines cex3Render).headD []) = 19 ∧
    Seg.chr ' ' ∈ (splitLines cex3Render).headD [] := by
  have h : cex3Render = wrapParagraph (ofString "aaa bbb ccc ddd eee fff") (mkCtx 10) := by
    simp [cex3Render, renderRoot, renderBlock, renderInlines, renderInline, joinSep]
  rw [h]
  decide

/-- C3 (amended): the per-line width bound is not the requested width `w`
but the wrap budget with its floor of 20 columns.  Every line of a wrapped
paragraph has visible width at most
`indent + max(max(20, w - indent), widest-word)`, and every line of a
rendered list item has visible width at most
`indent + markerWidth + max(max(20, w - indent - markerWidth),
widest-word)` — single unbreakable words wider than the budget are emitted
whole, and heading lines are not wrapped at all. -/
theorem c3_wrap_width_bounds (text : AText) (env : RenderEnv)
    (ordered : Bool) (start : Int) (idx : Nat) (item : MdNode)
    (ctx : RenderContext) (hth : ctx.theme = defaultTheme) :
    (∀ l ∈ splitLines (wrapParagraph text ctx),
      stringWidth l ≤ ctx.indentLevel +
        max (availWidth ctx.width ctx.indentLevel) (maxWordWidthAll text)) ∧
    (∀ l ∈ splitLines (renderListItem env ordered start idx item ctx),
      stringWidth l ≤ ctx.indentLevel +
        (stringWidth (markerStyledOf ordered start idx ctx.theme) + 1) +
        max (listAvailWidth ctx.width ctx.indentLevel
          (stringWidth (markerStyledOf ordered start idx ctx.theme) + 1))
          (maxWordWidthAll (joinLines (renderItemKids env (mdChildren item) ctx)))) := by
  constructor
  · unfold wrapParagraph
    dsimp only
    by_cases hi : ctx.indentLevel > 0
    · rw [if_pos hi]
      intro l hl
      rw [splitLines_joinLines ?n1 ?n2] at hl
      case n1 =>
        simp only [ne_eq, List.map_eq_nil_iff]
        exact splitOnChr_ne_nil _ _
      case n2 =>
        intro m hm
        rcases List.mem_map.mp hm with ⟨base, hbase, he⟩
        subst he
        intro hmem
        rcases List.mem_append.mp hmem with h | h
        · rcases List.mem_replicate.mp h with ⟨_, he⟩
          simp at he
        · exact (mem_splitOnChr hbase).1 h
      rcases List.mem_map.mp hl with ⟨base, hbase, he⟩
      subst he
      rw [stringWidth_append, stringWidth_repChr]
      have := wrapAnsiSoft_line_bound hbase
      unfold availWidth at this ⊢
      omega
    · rw [if_neg hi]
      intro l hl
      have := wrapAnsiSoft_line_bound hl
      omega
  · intro l hl
    rw [renderListItem] at hl
    rw [splitLines_joinLines (by simp) ?nn] at hl
    case nn =>
      intro m hm
      have hms : NoNL (markerStyledOf ordered start idx ctx.theme) :=
        noNL_markerStyledOf _ hth
      rcases List.mem_cons.mp hm with h | h
      · subst h
        intro hmem
        rcases List.mem_append.mp hmem with h | h
        · rcases List.mem_append.mp h with h' | h'
          · rcases List.mem_replicate.mp h' with ⟨_, he⟩
            simp at he
          · exact hms h'
        · rcases List.mem_cons.mp h with h' | h'
          · simp at h'
          · have hh := headD_mem_of_ne_nil
              (splitLines (wrapAnsiSoft
                (joinLines (renderItemKids env (mdChildren item) ctx))
                (listAvailWidth ctx.width ctx.indentLevel
                  (stringWidth (markerStyledOf ordered start idx ctx.theme) + 1))))
              [] (splitOnChr_ne_nil _ _)
            exact (mem_splitOnChr hh).1 h'
      · rcases List.mem_map.mp h with ⟨base, hbase, he⟩
        subst he
        intro hmem
        rcases List.mem_append.mp hmem with h' | h'
        · rcases List.mem_replicate.mp h' with ⟨_, he⟩
          simp at he
        · have hsub : base ∈ splitLines (wrapAnsiSoft
              (joinLines (renderItemKids env (mdChildren item) ctx))
              (listAvailWidth ctx.width ctx.indentLevel
                (stringWidth (markerStyledOf ordered start idx ctx.theme) + 1))) :=
            (List.drop_sublist 1 _).subset hbase
          exact (mem_splitOnChr hsub).1 h'
    rcases List.mem_cons.mp hl with h | h
    · subst h
      rw [stringWidth_append, stringWidth_append, stringWidth_repChr,
        stringWidth_cons_chr]
      have hh := headD_mem_of_ne_nil
        (splitLines (wrapAnsiSoft
          (joinLines (renderItemKids env (mdChildren item) ctx))
          (listAvailWidth ctx.width ctx.indentLevel
            (stringWidth (markerStyledOf ordered start idx ctx.theme) + 1))))
        [] (splitOnChr_ne_nil _ _)
      have hb := wrapAnsiSoft_line_bound hh
      omega
    · rcases List.mem_map.mp h with ⟨base, hbase, he⟩
      subst he
      rw [stringWidth_append, stringWidth_repChr]
      have hsub : base ∈ splitLines (wrapAnsiSoft
          (joinLines (renderItemKids env (mdChildren item) ctx))
          (listAvailWidth ctx.width ctx.indentLevel
            (stringWidth (markerStyledOf ordered start idx ctx.theme) + 1))) :=
        (List.drop_sublist 1 _).subset hbase
      have hb := wrapAnsiSoft_line_bound hsub
      omega

/-- C3 witness: the amended paragraph bound at a concrete render. -/
theorem c3_wrap_width_bounds_witness :
    stringWidth ((splitLines (wrapParagraph (ofString "hi brave new world")
      (mkCtx 30))).headD []) ≤ 0 +
      max (availWidth 30 0) (maxWordWidthAll (ofString "hi brave new world")) := by
  have h := (c3_wrap_width_bounds (ofString "hi brave new world") renvNone
    false 1 0 .otherLeaf (mkCtx 30) rfl).1
  exact h _ (headD_mem_of_ne_nil _ _ (splitOnChr_ne_nil _ _))

/-! Cache-key reasoning for invalidation. -/

theorem startsList_iff (p s : List Char) : startsList p s = true ↔ p <+: s := by
  induction p generalizing s with
  | nil =>
    simp only [startsList]
    exact ⟨fun _ => List.nil_prefix, fun _ => trivial⟩
  | cons a p ih =>
    cases s with
    | nil =>
      simp only [startsList]
      constructor
      · intro h
        exact absurd h (by simp)
      · intro h
        rcases h with ⟨r, he⟩
        simp at he
    | cons b t =>
      simp only [startsList, Bool.and_eq_true, decide_eq_true_eq, ih]
      constructor
      · rintro ⟨he, hp⟩
        subst he
        rcases hp with ⟨r, hr⟩
        exact ⟨r, by simp [hr]⟩
      · rintro ⟨r, hr⟩
        simp only [List.cons_append] at hr
        have h1 : a = b := ((List.cons.injEq _ _ _ _).mp hr).1
        have h2 : p ++ r = t := ((List.cons.injEq _ _ _ _).mp hr).2
        exact ⟨h1, r, h2⟩

theorem infix_of_pre {p s : List Char} (h : p <+: s) : p <:+: s := by
  rcases h with ⟨r, hr⟩
  exact ⟨[], r, by simpa using hr⟩

theorem infix_cons_split {p : List Char} {x : Char} {t : List Char}
    (h : p <:+: x :: t) : p <+: x :: t ∨ p <:+: t := by
  rcases h with ⟨s, r, he⟩
  cases s with
  | nil => exact Or.inl ⟨r, by simpa using he⟩
  | cons y s' =>
    simp only [List.cons_append, List.append_assoc] at he
    have h2 : s' ++ (p ++ r) = t := ((List.cons.injEq _ _ _ _).mp he).2
    exact Or.inr ⟨s', r, by simp [← h2]⟩

theorem infix_cons_extend {p : List Char} {x : Char} {t : List Char}
    (h : p <:+: t) : p <:+: x :: t := by
  rcases h with ⟨s, r, he⟩
  exact ⟨x :: s, r, by simp [he]⟩

theorem listContains_iff (s p : List Char) :
    listContains s p = true ↔ p <:+: s := by
  induction s with
  | nil =>
    rw [listContains]
    by_cases h : startsList p [] = true
    · rw [if_pos h]
      have hp := (startsList_iff p []).mp h
      rcases hp with ⟨r, hr⟩
      have hpn : p = [] := (List.append_eq_nil.mp hr).1
      subst hpn
      simp only [true_iff]
      exact ⟨[], [], rfl⟩
    · rw [if_neg h]
      constructor
      · intro hc
        simp at hc
      · intro hi
        rcases hi with ⟨a, b, he⟩
        have h1 : (a ++ p) ++ b = [] := by simpa [List.append_assoc] using he
        have h2 : p = [] := (List.append_eq_nil.mp (List.append_eq_nil.mp h1).1).2
        exact absurd ((startsList_iff p []).mpr (by simp [h2])) h
  | cons x t ih =>
    rw [listContains]
    by_cases h : startsList p (x :: t) = true
    · rw [if_pos h]
      simp only [true_iff]
      exact infix_of_pre ((startsList_iff _ _).mp h)
    · rw [if_neg h]
      rw [ih]
      constructor
      · exact infix_cons_extend
      · intro hi
        rcases infix_cons_split hi with h' | h'
        · exact absurd ((startsList_iff _ _).mpr h') h
        · exact h'

/-- A pattern starting with ':' cannot begin inside a colon-free block:
its occurrence as an infix lies entirely in the rest. -/
theorem colon_head_infix_right {A C Q : List Char} (hA : ':' ∉ A)
    (h : (':' :: Q) <:+: (A ++ C)) : (':' :: Q) <:+: C := by
  induction A with
  | nil => simpa using h
  | cons a A' ih =>
    rw [List.cons_append] at h
    rcases infix_cons_split h with h' | h'
    · rcases h' with ⟨r, he⟩
      simp only [List.cons_append] at he
      have h1 : ':' = a := ((List.cons.injEq _ _ _ _).mp he).1
      exact absurd (h1 ▸ List.mem_cons_self a A') hA
    · exact ih (fun hm => hA (List.mem_cons_of_mem _ hm)) h'

/-- A colon-terminated colon-free block that is a prefix of another
colon-free block followed by ':' equals that block. -/
theorem pfx_digits_eq {D B C' : List Char} (hD : ':' ∉ D) (hB : ':' ∉ B)
    (h : (D ++ [':']) <+: (B ++ ':' :: C')) : D = B := by
  induction D generalizing B with
  | nil =>
    cases B with
    | nil => rfl
    | cons b B' =>
      rcases h with ⟨r, he⟩
      simp only [List.nil_append, List.cons_append] at he
      have h1 : ':' = b := ((List.cons.injEq _ _ _ _).mp he).1
      exact absurd (h1 ▸ List.mem_cons_self b B') hB
  | cons d D' ih =>
    cases B with
    | nil =>
      rcases h with ⟨r, he⟩
      simp only [List.cons_append, List.nil_append] at he
      have h1 : d = ':' := ((List.cons.injEq _ _ _ _).mp he).1
      subst h1
      exact absurd (List.mem_cons_self _ _) hD
    | cons b B' =>
      rcases h with ⟨r, he⟩
      simp only [List.cons_append, List.append_assoc] at he
      have h1 : d = b := ((List.cons.injEq _ _ _ _).mp he).1
      have h2 : D' ++ ([':'] ++ r) = B' ++ ':' :: C' :=
        ((List.cons.injEq _ _ _ _).mp he).2
      have h3 : (D' ++ [':']) <+: (B' ++ ':' :: C') :=
        ⟨r, by simpa [List.append_assoc] using h2⟩
      have h4 := ih (fun hm => hD (List.mem_cons_of_mem _ hm))
        (fun hm => hB (List.mem_cons_of_mem _ hm)) h3
      rw [h1, h4]

theorem hexChars_mem_digits {n : Nat} :
    ∀ c ∈ hexChars n, c ∈ "0123456789abcdef".data := by
  induction n using Nat.strong_induction_on with
  | _ n ih =>
    rw [hexChars]
    split
    · intro c hc
      simp only [List.mem_singleton] at hc
      exact hc ▸ hexDigit_mem_digits n
    · rename_i h
      intro c hc
      rcases List.mem_append.mp hc with h' | h'
      · exact ih (n / 16) (Nat.div_lt_self (by omega) (by omega)) c h'
      · simp only [List.mem_singleton] at h'
        exact h' ▸ hexDigit_mem_digits (n % 16)

theorem hashKey_ne_colon (md : String) : ∀ c ∈ hashKey md, c ≠ ':' := by
  intro c hc
  have := hexChars_mem_digits c hc
  revert this
  exact fun hm => (by decide : ∀ x ∈ "0123456789abcdef".data, x ≠ ':') c hm

/-- The decisive key lemma: the pattern `:[bucket']:` occurs in a cache
key `[hash]:[bucket]:github-dark:false` (hash colon-free) exactly when the
buckets are equal. -/
theorem pat_infix_mkCacheKey {h : List Char} {b b' : Int}
    (hh : ∀ c ∈ h, c ≠ ':') :
    ((':' :: intChars b' ++ [':']) <:+: mkCacheKey h b) ↔ b' = b := by
  have hA : ':' ∉ h := fun hm => hh ':' hm rfl
  have hDb : ':' ∉ intChars b := fun hm => intChars_ne_colon ':' hm rfl
  have hDb' : ':' ∉ intChars b' := fun hm => intChars_ne_colon ':' hm rfl
  have hG : ':' ∉ ("github-dark".data : List Char) := by decide
  have hF : ':' ∉ ("false".data : List Char) := by decide
  constructor
  · intro hin
    unfold mkCacheKey at hin
    rw [show ("github-dark:false".data : List Char) =
      "github-dark".data ++ ':' :: "false".data from by decide] at hin
    simp only [List.cons_append, List.append_assoc] at hin
    have s1 := colon_head_infix_right hA hin
    rcases infix_cons_split s1 with hp | hi
    · rcases hp with ⟨r, he⟩
      simp only [List.cons_append, List.append_assoc] at he
      have h2 := ((List.cons.injEq _ _ _ _).mp he).2
      have h3 : (intChars b' ++ [':']) <+:
          (intChars b ++ ':' :: ("github-dark".data ++ ':' :: "false".data)) :=
        ⟨r, by simpa [List.append_assoc] using h2⟩
      exact intChars_injective (pfx_digits_eq hDb' hDb h3)
    · have s2 := colon_head_infix_right hDb hi
      rcases infix_cons_split s2 with hp | hi2
      · rcases hp with ⟨r, he⟩
        simp only [List.cons_append, List.append_assoc] at he
        have h2 := ((List.cons.injEq _ _ _ _).mp he).2
        have h3 : (intChars b' ++ [':']) <+:
            ("github-dark".data ++ ':' :: "false".data) :=
          ⟨r, by simpa [List.append_assoc] using h2⟩
        have h4 := pfx_digits_eq hDb' hG h3
        have hg : 'g' ∈ intChars b' := by rw [h4]; decide
        rcases intChars_mem 'g' hg with hcase | ⟨d, _, hcase⟩
        · exact absurd hcase (by decide)
        · have hmemd := decDigit_mem_digits d
          rw [← hcase] at hmemd
          exact absurd hmemd (by decide)
      · have s3 := colon_head_infix_right hG hi2
        rcases infix_cons_split s3 with hp | hi3
        · rcases hp with ⟨r, he⟩
          simp only [List.cons_append, List.append_assoc] at he
          have h2 := ((List.cons.injEq _ _ _ _).mp he).2
          have hmem : ':' ∈ (['f', 'a', 'l', 's', 'e'] : List Char) := by
            rw [← h2]
            simp
          exact absurd hmem (by decide)
        · rcases hi3 with ⟨s, r, he⟩
          have hmem : ':' ∈ (['f', 'a', 'l', 's', 'e'] : List Char) := by
            rw [← he]
            simp
          exact absurd hmem (by decide)
  · intro he
    subst he
    unfold mkCacheKey
    exact ⟨h, "github-dark:false".data, by simp⟩

/-- C6: `invalidateCacheForWidth(w)` deletes exactly the render-cache
entries whose width bucket is `getWidthBucket w` and keeps every entry of
another bucket; the AST cache is untouched.  The third part grounds the
colon-free-hash hypothesis: every content hash the renderer produces is
made of hex digits, never ':'. -/
theorem c6_invalidate_exact_bucket (w : Int) (st : RState) :
    (invalidateCacheForWidth w st).astCache = st.astCache ∧
    (∀ (h : List Char) (b : Int) (v : AText), (∀ c ∈ h, c ≠ ':') →
      ((mkCacheKey h b, v) ∈ (invalidateCacheForWidth w st).renderCache ↔
        (mkCacheKey h b, v) ∈ st.renderCache ∧ b ≠ getWidthBucket w)) ∧
    (∀ md : String, ∀ c ∈ hashKey md, c ≠ ':') := by
  refine ⟨rfl, ?_, hashKey_ne_colon⟩
  intro h b v hcf
  unfold invalidateCacheForWidth
  dsimp only
  rw [List.mem_filter]
  have hiff := @pat_infix_mkCacheKey h b (getWidthBucket w) hcf
  constructor
  · rintro ⟨hmem, hp⟩
    refine ⟨hmem, ?_⟩
    intro he
    rw [Bool.not_eq_true', ← Bool.not_eq_true] at hp
    exact hp ((listContains_iff _ _).mpr (hiff.mpr he.symm))
  · rintro ⟨hmem, hne⟩
    refine ⟨hmem, ?_⟩
    rw [Bool.not_eq_true', ← Bool.not_eq_true]
    intro hc
    exact hne (hiff.mp ((listContains_iff _ _).mp hc)).symm

/-- A two-entry render cache with buckets 50 and 80 under hash "a". -/
def stC6 : RState where
  initialized := false
  astCache := []
  renderCache := [(mkCacheKey ['a'] 50, ofString "x"),
    (mkCacheKey ['a'] 80, ofString "y")]
  cachedWidth := none

/-- C6 witness: the exact-bucket deletion at a concrete cache. -/
theorem c6_invalidate_exact_bucket_witness :
    ((mkCacheKey ['a'] 50, ofString "x") ∈
        (invalidateCacheForWidth 50 stC6).renderCache ↔
      (mkCacheKey ['a'] 50, ofString "x") ∈ stC6.renderCache ∧
        (50 : Int) ≠ getWidthBucket 50) ∧
    ((mkCacheKey ['a'] 80, ofString "y") ∈
        (invalidateCacheForWidth 50 stC6).renderCache ↔
      (mkCacheKey ['a'] 80, ofString "y") ∈ stC6.renderCache ∧
        (80 : Int) ≠ getWidthBucket 50) ∧
    (invalidateCacheForWidth 50 stC6).astCache = stC6.astCache := by
  have h := c6_invalidate_exact_bucket 50 stC6
  exact ⟨h.2.1 ['a'] 50 (ofString "x") (by decide),
    h.2.1 ['a'] 80 (ofString "y") (by decide), h.1⟩
